import Mathlib

set_option maxHeartbeats 1000000

/-!
Verification development for the timberborn support-platform solver.

The definitions below are a shallow embedding of the Rust sources:
`src/math/point.rs`, `src/math/dimensions.rs`, `src/grid.rs`,
`src/encoder.rs`, `src/encoder/platform_layout.rs`.  Machine integers
(`isize`, `usize`) are modelled as `Int` / `Nat` (the program never
approaches overflow on the quantities involved), hash maps and hash
sets are modelled as association lists / lists with the program's
custom key equality, and SAT variables are the natural numbers handed
out by the sequential `BasicVarManager`.
-/

namespace TimberbornSupport

/-- Signed 2D point (`Point` in `src/math/point.rs`). -/
structure Point where
  x : Int
  y : Int
deriving DecidableEq, Repr

namespace Point

/-- `impl Add for Point`. -/
def add (a b : Point) : Point := ⟨a.x + b.x, a.y + b.y⟩

/-- `impl Neg for Point`. -/
def neg (a : Point) : Point := ⟨-a.x, -a.y⟩

/-- `impl Sub for Point` (defined in the source as `self + (-rhs)`). -/
def sub (a b : Point) : Point := add a (neg b)

/-- `Point::neighbors`: the four axis neighbors, in source order. -/
def neighbors (p : Point) : List Point :=
  [⟨p.x + 1, p.y⟩, ⟨p.x, p.y + 1⟩, ⟨p.x - 1, p.y⟩, ⟨p.x, p.y - 1⟩]

/-- `Point::flipped`: swaps x and y. -/
def flipped (p : Point) : Point := ⟨p.y, p.x⟩

theorem neighbors_symm (p q : Point) : p ∈ q.neighbors → q ∈ p.neighbors := by
  intro h
  simp only [neighbors, List.mem_cons, List.mem_singleton] at h ⊢
  rcases p with ⟨px, py⟩
  rcases q with ⟨qx, qy⟩
  rcases h with h | h | h | h <;> simp_all

end Point

/-- Unsigned width×height (`Dimensions` in `src/math/dimensions.rs`). -/
structure Dimensions where
  width : Nat
  height : Nat
deriving DecidableEq, Repr

namespace Dimensions

/-- `Dimensions::flipped`. -/
def flipped (d : Dimensions) : Dimensions := ⟨d.height, d.width⟩

/-- `Dimensions::empty`: either axis is 0. -/
def empty (d : Dimensions) : Bool := d.width == 0 || d.height == 0

/-- `Dimensions::contains(point)`: `0 <= x < w && 0 <= y < h` with the
point coordinates signed (`isize`) and the axes cast from `usize`. -/
def contains (d : Dimensions) (p : Point) : Bool :=
  decide (0 ≤ p.x) && decide (p.x < (d.width : Int)) &&
  decide (0 ≤ p.y) && decide (p.y < (d.height : Int))

/-- The custom `PartialEq for Dimensions`: all empty dimensions are
identified with each other, non-empty ones compare componentwise. -/
def deq (a b : Dimensions) : Bool :=
  (a.empty && b.empty) || (a.width == b.width && a.height == b.height)

/-- Rust's `usize::cmp`. -/
def cmpN (a b : Nat) : Ordering :=
  if a < b then .lt else if a = b then .eq else .gt

/-- `Dimensions::partial_cmp`, with the source's match arms in order:
exactly one empty compares less/greater, two empties compare equal,
and non-empty values compare through the pair of axis `cmp`s. -/
def pcmp (a b : Dimensions) : Option Ordering :=
  match a.empty, b.empty with
  | true, false => some .lt
  | false, true => some .gt
  | true, true => some .eq
  | false, false =>
    match cmpN a.width b.width, cmpN a.height b.height with
    | .eq, .eq => some .eq
    | .lt, .gt => none
    | .gt, .lt => none
    | .lt, _ => some .lt
    | _, .lt => some .lt
    | .gt, _ => some .gt
    | _, .gt => some .gt

/-- Rust's `a < b` on `Dimensions` (`partial_cmp == Some(Less)`), as a
boolean, used verbatim by the decoder. -/
def dltB (a b : Dimensions) : Bool := decide (a.pcmp b = some .lt)

/-- Rust's `a <= b` on `Dimensions`. -/
def dleB (a b : Dimensions) : Bool :=
  decide (a.pcmp b = some .lt) || decide (a.pcmp b = some .eq)

/-- `Dimensions::iter_within`, the unfolding of `DimensionsIter`.  The
iterator yields the points row-major; note the source quirk that for
`width = 0` (and positive height) it still yields one point `(0, y)`
per row, because the `x` bound is only checked after yielding. -/
def iterWithin (d : Dimensions) : List Point :=
  if d.width = 0 then
    (List.range d.height).map (fun (y : Nat) => (⟨0, (y : Int)⟩ : Point))
  else
    (List.range d.height).flatMap
      (fun (y : Nat) =>
        (List.range d.width).map (fun (x : Nat) => (⟨(x : Int), (y : Int)⟩ : Point)))

/-- `impl Hash for Dimensions`: the data fed to the hasher — nothing
for an empty dimension, width then height otherwise. -/
def hashData (d : Dimensions) : List Nat :=
  if d.empty then [] else [d.width, d.height]

theorem empty_iff (d : Dimensions) :
    d.empty = true ↔ d.width = 0 ∨ d.height = 0 := by
  simp [empty]

theorem empty_false_iff (d : Dimensions) :
    d.empty = false ↔ 0 < d.width ∧ 0 < d.height := by
  simp only [empty, Bool.or_eq_false_iff, beq_eq_false_iff_ne, ne_eq]
  omega

theorem deq_iff (a b : Dimensions) :
    a.deq b = true ↔
      ((a.width = 0 ∨ a.height = 0) ∧ (b.width = 0 ∨ b.height = 0)) ∨
      (a.width = b.width ∧ a.height = b.height) := by
  simp [deq, Bool.or_eq_true, Bool.and_eq_true, empty_iff]

theorem deq_refl (a : Dimensions) : a.deq a = true := by
  rw [deq_iff]
  omega

theorem deq_symm {a b : Dimensions} (h : a.deq b = true) : b.deq a = true := by
  rw [deq_iff] at h ⊢
  omega

theorem deq_trans {a b c : Dimensions} (h1 : a.deq b = true)
    (h2 : b.deq c = true) : a.deq c = true := by
  rw [deq_iff] at h1 h2 ⊢
  omega

theorem pcmp_eq_lt_iff (a b : Dimensions) :
    a.pcmp b = some .lt ↔
      ((a.width = 0 ∨ a.height = 0) ∧ 0 < b.width ∧ 0 < b.height) ∨
      (0 < a.width ∧ 0 < a.height ∧ 0 < b.width ∧ 0 < b.height ∧
        a.width ≤ b.width ∧ a.height ≤ b.height ∧
        (a.width < b.width ∨ a.height < b.height)) := by
  cases ha : a.empty <;> cases hb : b.empty <;>
    simp only [pcmp, ha, hb, cmpN] <;> (try split_ifs) <;>
    simp_all [empty_iff, empty_false_iff] <;> omega

theorem pcmp_eq_eq_iff (a b : Dimensions) :
    a.pcmp b = some .eq ↔
      ((a.width = 0 ∨ a.height = 0) ∧ (b.width = 0 ∨ b.height = 0)) ∨
      (0 < a.width ∧ 0 < a.height ∧
        a.width = b.width ∧ a.height = b.height) := by
  cases ha : a.empty <;> cases hb : b.empty <;>
    simp only [pcmp, ha, hb, cmpN] <;> (try split_ifs) <;>
    simp_all [empty_iff, empty_false_iff] <;> omega

theorem pcmp_eq_gt_iff (a b : Dimensions) :
    a.pcmp b = some .gt ↔
      ((b.width = 0 ∨ b.height = 0) ∧ 0 < a.width ∧ 0 < a.height) ∨
      (0 < a.width ∧ 0 < a.height ∧ 0 < b.width ∧ 0 < b.height ∧
        b.width ≤ a.width ∧ b.height ≤ a.height ∧
        (b.width < a.width ∨ b.height < a.height)) := by
  cases ha : a.empty <;> cases hb : b.empty <;>
    simp only [pcmp, ha, hb, cmpN] <;> (try split_ifs) <;>
    simp_all [empty_iff, empty_false_iff] <;> omega

theorem pcmp_eq_none_iff (a b : Dimensions) :
    a.pcmp b = none ↔
      (0 < a.width ∧ 0 < a.height ∧ 0 < b.width ∧ 0 < b.height ∧
        ((a.width < b.width ∧ b.height < a.height) ∨
         (b.width < a.width ∧ a.height < b.height))) := by
  cases ha : a.empty <;> cases hb : b.empty <;>
    simp only [pcmp, ha, hb, cmpN] <;> (try split_ifs) <;>
    simp_all [empty_iff, empty_false_iff] <;> omega

theorem dltB_iff (a b : Dimensions) :
    a.dltB b = true ↔ a.pcmp b = some .lt := by
  simp [dltB]

theorem dltB_arith_iff (a b : Dimensions) :
    a.dltB b = true ↔
      ((a.width = 0 ∨ a.height = 0) ∧ 0 < b.width ∧ 0 < b.height) ∨
      (0 < a.width ∧ 0 < a.height ∧ 0 < b.width ∧ 0 < b.height ∧
        a.width ≤ b.width ∧ a.height ≤ b.height ∧
        (a.width < b.width ∨ a.height < b.height)) := by
  rw [dltB_iff, pcmp_eq_lt_iff]

theorem dltB_trans {a b c : Dimensions} (h1 : a.dltB b = true)
    (h2 : b.dltB c = true) : a.dltB c = true := by
  rw [dltB_arith_iff] at h1 h2 ⊢
  omega

theorem dltB_irrefl (a : Dimensions) : a.dltB a = false := by
  cases h : a.dltB a
  · rfl
  · rw [dltB_arith_iff] at h
    omega

theorem iterWithin_flatMap (d : Dimensions) (hw : 0 < d.width) :
    d.iterWithin =
      (List.range d.height).flatMap
        (fun (y : Nat) =>
          (List.range d.width).map
            (fun (x : Nat) => (⟨(x : Int), (y : Int)⟩ : Point))) := by
  rw [iterWithin, if_neg (by omega)]

theorem range_flatMap_eq_range_map (w : Nat) (hw : 0 < w) : ∀ h : Nat,
    (List.range h).flatMap
        (fun (y : Nat) =>
          (List.range w).map (fun (x : Nat) => (⟨(x : Int), (y : Int)⟩ : Point))) =
      (List.range (w * h)).map
        (fun (i : Nat) => (⟨((i % w : Nat) : Int), ((i / w : Nat) : Int)⟩ : Point)) := by
  intro h
  induction h with
  | zero => simp
  | succ n ih =>
    rw [List.range_succ, List.flatMap_append, ih, Nat.mul_succ, List.range_add,
      List.map_append, List.map_map, List.flatMap_singleton]
    congr 1
    apply List.map_congr_left
    intro x hx
    rw [List.mem_range] at hx
    have h1 : (w * n + x) % w = x := by
      rw [Nat.mul_add_mod, Nat.mod_eq_of_lt hx]
    have h2 : (w * n + x) / w = n := by
      rw [Nat.mul_add_div hw, Nat.div_eq_of_lt hx]
      omega
    simp only [Function.comp_apply]
    rw [h1, h2]

theorem iterWithin_eq_range_map (d : Dimensions) (hw : 0 < d.width) :
    d.iterWithin =
      (List.range (d.width * d.height)).map
        (fun (i : Nat) =>
          (⟨((i % d.width : Nat) : Int), ((i / d.width : Nat) : Int)⟩ : Point)) := by
  rw [iterWithin_flatMap d hw, range_flatMap_eq_range_map d.width hw]

theorem iterWithin_length (d : Dimensions) (hd : 0 < d.width ∨ d.height = 0) :
    d.iterWithin.length = d.width * d.height := by
  rcases hd with hw | hh
  · rw [iterWithin_eq_range_map d hw]
    simp
  · rcases Nat.eq_zero_or_pos d.width with hw | hw
    · simp [iterWithin, hw, hh]
    · rw [iterWithin_eq_range_map d hw]
      simp

theorem mem_iterWithin (d : Dimensions) (p : Point) (hw : 0 < d.width) :
    p ∈ d.iterWithin ↔ d.contains p = true := by
  rw [iterWithin_flatMap d hw]
  simp only [List.mem_flatMap, List.mem_map, List.mem_range, contains,
    Bool.and_eq_true, decide_eq_true_eq]
  constructor
  · rintro ⟨y, hy, x, hx, rfl⟩
    dsimp only
    refine ⟨⟨⟨?_, ?_⟩, ?_⟩, ?_⟩ <;> omega
  · rintro ⟨⟨⟨hx0, hxw⟩, hy0⟩, hyh⟩
    rcases p with ⟨px, py⟩
    dsimp only at hx0 hxw hy0 hyh
    refine ⟨py.toNat, by omega, px.toNat, by omega, ?_⟩
    simp only [Point.mk.injEq]
    omega

theorem iterWithin_nodup (d : Dimensions) : d.iterWithin.Nodup := by
  rcases Nat.eq_zero_or_pos d.width with hw | hw
  · rw [iterWithin, if_pos hw]
    refine List.Nodup.map ?_ (List.nodup_range d.height)
    intro a b hab
    simpa using hab
  · rw [iterWithin_eq_range_map d hw]
    refine List.Nodup.map_on ?_ (List.nodup_range _)
    intro a ha b hb hab
    rw [List.mem_range] at ha hb
    simp only [Point.mk.injEq, Int.natCast_inj] at hab
    obtain ⟨h1, h2⟩ := hab
    calc a = d.width * (a / d.width) + a % d.width := (Nat.div_add_mod a d.width).symm
      _ = d.width * (b / d.width) + b % d.width := by rw [h1, h2]
      _ = b := Nat.div_add_mod b d.width

theorem iterWithin_get? (d : Dimensions) (i : Nat) (hw : 0 < d.width)
    (hi : i < d.width * d.height) :
    d.iterWithin.get? i =
      some ⟨((i % d.width : Nat) : Int), ((i / d.width : Nat) : Int)⟩ := by
  rw [iterWithin_eq_range_map d hw, List.get?_eq_getElem?, List.getElem?_map,
    List.getElem?_range (by simpa using hi)]
  rfl

end Dimensions

/-- Dense row-major matrix (`Grid<T>` in `src/grid.rs`). -/
structure Grid (α : Type) where
  data : List α
  dims : Dimensions

namespace Grid

variable {α : Type}

/-- `Grid::data_index`: the row-major index, bounds-checked through
`Dimensions::contains`. -/
def dataIndex (g : Grid α) (p : Point) : Option Nat :=
  if g.dims.contains p
  then some (p.x.toNat + p.y.toNat * g.dims.width)
  else none

/-- `Grid::get`.  The source indexes `self.data[i]`; an index beyond the
data length (impossible for a well-formed grid) is modelled as `none`. -/
def get (g : Grid α) (p : Point) : Option α :=
  (g.dataIndex p).bind fun i => g.data.get? i

/-- `Grid::get_mut` followed by a write, as a functional update
(`List.set` leaves the list unchanged out of range, matching the
bounds-checked lookup). -/
def setAt (g : Grid α) (p : Point) (v : α) : Grid α :=
  match g.dataIndex p with
  | some i => ⟨g.data.set i v, g.dims⟩
  | none => g

/-- `Grid::index_to_point`: `(i % width, i / width)`.  (The source
divides by `width`; a zero width would panic in Rust, while Lean's
`Nat` division by zero is total — well-formedness excludes it.) -/
def indexToPoint (g : Grid α) (i : Nat) : Point :=
  ⟨((i % g.dims.width : Nat) : Int), ((i / g.dims.width : Nat) : Int)⟩

/-- `Grid::enumerate`: data entries labelled with their points. -/
def enumerate (g : Grid α) : List (Point × α) :=
  g.data.enum.map (fun iv => (g.indexToPoint iv.1, iv.2))

/-- `Grid::try_from_vec`: `None` on a shape mismatch. -/
def tryFromVec (dims : Dimensions) (data : List α) : Option (Grid α) :=
  if dims.width * dims.height = data.length then some ⟨data, dims⟩ else none

/-- Well-formedness of a grid as produced by `try_from_vec` /
`from_fn`: the data matches the dimensions, and the degenerate shapes
on which the source iterator misbehaves (zero width with positive
height, where `Grid::from_fn` panics on `unwrap`) are excluded. -/
def Wf (g : Grid α) : Prop :=
  g.data.length = g.dims.width * g.dims.height ∧
    (0 < g.dims.width ∨ g.dims.height = 0)

theorem get_eq_of_contains (g : Grid α) (p : Point)
    (h : g.dims.contains p = true) :
    g.get p = g.data.get? (p.x.toNat + p.y.toNat * g.dims.width) := by
  rw [get, dataIndex, if_pos h]
  rfl

theorem get_eq_none_of_not_contains (g : Grid α) (p : Point)
    (h : g.dims.contains p = false) : g.get p = none := by
  rw [get, dataIndex, if_neg (by simp [h])]
  rfl

theorem contains_index_lt (d : Dimensions) (p : Point)
    (h : d.contains p = true) :
    p.x.toNat + p.y.toNat * d.width < d.width * d.height := by
  simp only [Dimensions.contains, Bool.and_eq_true, decide_eq_true_eq] at h
  obtain ⟨⟨⟨hx0, hxw⟩, hy0⟩, hyh⟩ := h
  have hx : p.x.toNat < d.width := by omega
  have hy : p.y.toNat < d.height := by omega
  calc p.x.toNat + p.y.toNat * d.width
      < d.width + p.y.toNat * d.width := by omega
    _ = (p.y.toNat + 1) * d.width := by ring
    _ ≤ d.height * d.width := Nat.mul_le_mul_right _ (by omega)
    _ = d.width * d.height := Nat.mul_comm _ _

theorem get_isSome_iff (g : Grid α) (hg : g.Wf) (p : Point) :
    (g.get p).isSome = true ↔ g.dims.contains p = true := by
  cases h : g.dims.contains p
  · simp [get_eq_none_of_not_contains g p h]
  · rw [get_eq_of_contains g p h]
    have hlt := contains_index_lt g.dims p h
    have hlen : p.x.toNat + p.y.toNat * g.dims.width < g.data.length := by
      rw [hg.1]
      exact hlt
    simp [List.get?_eq_getElem?, List.getElem?_eq_getElem hlen]

/-- The point labelling entry `i` of a well-formed grid is the `i`-th
point of the row-major traversal. -/
theorem iterWithin_get_indexToPoint (g : Grid α) (hg : g.Wf) (i : Nat)
    (hi : i < g.data.length) :
    g.dims.iterWithin.get? i = some (g.indexToPoint i) := by
  rcases hg with ⟨hlen, hw | hh⟩
  · rw [Dimensions.iterWithin_get? g.dims i hw (by omega)]
    rfl
  · rw [hh, Nat.mul_zero] at hlen
    omega

end Grid

/-- Modelled from the spec: `PlatformDef` (the current `platform.rs`
is absent from the snapshot; §3 of the spec: "PlatformDef: wraps
`Dimensions`").  A def is identified by its native footprint. -/
structure PlatformDef where
  dims0 : Dimensions
deriving DecidableEq, Repr

/-- Modelled from the spec: `PlatformDef::dims()`. -/
def PlatformDef.dims (d : PlatformDef) : Dimensions := d.dims0

/-- Modelled from the spec: `Platform` = `(origin: Point, def:
PlatformDef, rotated: bool)` (§3).  The `def` field is named `pdef`
(`def` is a Lean keyword). -/
structure Platform where
  point : Point
  pdef : PlatformDef
  rotated : Bool
deriving DecidableEq, Repr

/-- Modelled from the spec: effective dims = `def.dims` optionally
transposed (§3). -/
def Platform.dims (p : Platform) : Dimensions :=
  if p.rotated then p.pdef.dims.flipped else p.pdef.dims

/-- The SAT variables of `rustsat`'s `BasicVarManager`: consecutive
indices starting from 0. -/
abbrev Var := Nat

/-- A literal: a variable with a sign. -/
structure Lit where
  var : Var
  pos : Bool
deriving DecidableEq, Repr

def posLit (v : Var) : Lit := ⟨v, true⟩

def negLit (v : Var) : Lit := ⟨v, false⟩

/-- A CNF clause (disjunction of literals). -/
abbrev Clause := List Lit

/-- `HashMap<Dimensions, HashSet<PlatformDef>>`, as an association
list keyed by the custom `Dimensions` equality `deq` (its `Hash`
implementation is consistent with `deq`, so lookups hit exactly the
`deq`-equal key), with each `HashSet` as a duplicate-free list. -/
abbrev DimMap := List (Dimensions × List PlatformDef)

/-- One `map.entry(k).or_default().insert(p)` step. -/
def dimMapInsert : DimMap → Dimensions → PlatformDef → DimMap
  | [], k, p => [(k, [p])]
  | (k', s) :: rest, k, p =>
    if k'.deq k then (k', if p ∈ s then s else s ++ [p]) :: rest
    else (k', s) :: dimMapInsert rest k p

/-- `dims_platform_map` (`src/encoder.rs`): each def is registered
under its dims and under its flipped dims. -/
def dimsPlatformMap (defs : List PlatformDef) : DimMap :=
  defs.foldl
    (fun m p => dimMapInsert (dimMapInsert m p.dims p) p.dims.flipped p) []

/-- `HashMap::get` on a `DimMap`. -/
def dimMapGet (m : DimMap) (d : Dimensions) : Option (List PlatformDef) :=
  (m.find? (fun ks => ks.1.deq d)).map (·.2)

/-- `TERRAIN_SUPPORT_DISTANCE` (`src/lib.rs`). -/
def TERRAIN_SUPPORT_DISTANCE : Nat := 4

/-- An `EncodedItem` (`src/encoder.rs`). -/
inductive EncodedItem where
  | platform (point : Point) (dims : Dimensions)
  | terrain (point : Point) (layer : Nat)
deriving DecidableEq, Repr

/-- `EncodingTileVars`: per-tile platform variables (one per catalog
footprint dimension) and, for terrain tiles, the stack of
`TERRAIN_SUPPORT_DISTANCE` layer variables. -/
structure EncodingTileVars where
  dimsVars : List (Dimensions × Var)
  terrain : Option (List Var)
deriving DecidableEq, Repr

/-- `EncodingTileVars::for_dims`: hash-map lookup under the custom
`Dimensions` equality. -/
def EncodingTileVars.forDims (t : EncodingTileVars) (d : Dimensions) : Option Var :=
  (t.dimsVars.find? (fun kv => kv.1.deq d)).map (·.2)

/-- The tile built at counter value `c`: the dim keys paired with
consecutive fresh variables, then (for terrain) `K` more fresh
variables.  This is the `EncodingTileVars` literal inside
`EncodingVars::new`, with `var_man.new_var()` yielding `c`, `c+1`, …
in field order. -/
def mkTile (dimKeys : List Dimensions) (isT : Bool) (c : Var) : EncodingTileVars :=
  { dimsVars := dimKeys.zip (List.range' c dimKeys.length),
    terrain :=
      if isT then some (List.range' (c + dimKeys.length) TERRAIN_SUPPORT_DISTANCE)
      else none }

/-- Number of variables a tile consumes. -/
def tileVarCount (nDims : Nat) (isT : Bool) : Nat :=
  nDims + (if isT then TERRAIN_SUPPORT_DISTANCE else 0)

/-- The `Grid::from_fn` loop of `EncodingVars::new`, threading the
variable counter through the row-major traversal.  The source does
`terrain.get(p).unwrap()`; for a well-formed world every traversed
point is in bounds, so the `unwrap` (modelled by `getD false`) never
hits the panic path under the theorems' hypotheses. -/
def allocTiles (dimKeys : List Dimensions) (world : Grid Bool) :
    List Point → Var → List EncodingTileVars
  | [], _ => []
  | p :: ps, c =>
    let t := (world.get p).getD false
    mkTile dimKeys t c :: allocTiles dimKeys world ps (c + tileVarCount dimKeys.length t)

/-- Total number of variables allocated for a list of tiles. -/
def allocTotal (dimKeys : List Dimensions) (world : Grid Bool) : List Point → Nat
  | [] => 0
  | p :: ps =>
    tileVarCount dimKeys.length ((world.get p).getD false) + allocTotal dimKeys world ps

/-- The variables recorded in one tile, in allocation order. -/
def tileVarsList (t : EncodingTileVars) : List Var :=
  t.dimsVars.map (·.2) ++ t.terrain.getD []

/-- `HashMap::insert` on the inverse (`Var → EncodedItem`) map. -/
def assocInsert (m : List (Var × EncodedItem)) (k : Var) (v : EncodedItem) :
    List (Var × EncodedItem) :=
  match m with
  | [] => [(k, v)]
  | (k', v') :: rest =>
    if k' = k then (k', v) :: rest else (k', v') :: assocInsert rest k v

/-- The inverse-map insertions performed for one tile of
`EncodingVars::new`: platform entries first, then terrain-layer
entries (`.iter().flatten().enumerate()`). -/
def addTileEntries (m : List (Var × EncodedItem)) (pv : Point × EncodingTileVars) :
    List (Var × EncodedItem) :=
  (pv.2.terrain.getD []).enum.foldl
    (fun m lv => assocInsert m lv.2 (.terrain pv.1 lv.1))
    (pv.2.dimsVars.foldl
      (fun m dv => assocInsert m dv.2 (.platform pv.1 dv.1)) m)

/-- The `var_map` loop of `EncodingVars::new` over `grid.enumerate()`. -/
def buildVarMap (tiles : List (Point × EncodingTileVars)) : List (Var × EncodedItem) :=
  tiles.foldl addTileEntries []

/-- `EncodingVars` (`src/encoder.rs`). -/
structure EncodingVars where
  dimMap : DimMap
  grid : Grid EncodingTileVars
  varMap : List (Var × EncodedItem)

/-- `EncodingVars::new`. -/
def EncodingVars.new (defs : List PlatformDef) (world : Grid Bool) : EncodingVars :=
  let dimMap := dimsPlatformMap defs
  let dimKeys := dimMap.map (·.1)
  let grid : Grid EncodingTileVars :=
    ⟨allocTiles dimKeys world world.dims.iterWithin 0, world.dims⟩
  { dimMap := dimMap, grid := grid, varMap := buildVarMap grid.enumerate }

/-- `EncodingVars::at`. -/
def EncodingVars.tileAt (vars : EncodingVars) (p : Point) : Option EncodingTileVars :=
  vars.grid.get p

/-- `EncodingVars::for_dims_at`. -/
def EncodingVars.forDimsAt (vars : EncodingVars) (p : Point) (d : Dimensions) :
    Option Var :=
  (vars.tileAt p).bind (·.forDims d)

/-- `HashMap::get` on the inverse map. -/
def varMapGet (m : List (Var × EncodedItem)) (v : Var) : Option EncodedItem :=
  (m.find? (fun kv => kv.1 = v)).map (·.2)

/-- `EncodingVars::var_to_platform`.  The representative def is the
first element of the `HashSet` (`s.iter().next()`); the `.expect`
panic on a dangling dims key (impossible by construction) is modelled
as `none`. -/
def EncodingVars.varToPlatform (vars : EncodingVars) (v : Var) : Option Platform :=
  match varMapGet vars.varMap v with
  | some (.platform point dims) =>
    match dimMapGet vars.dimMap dims with
    | some (d0 :: _) => some ⟨point, d0, !(d0.dims.deq dims)⟩
    | _ => none
  | _ => none

/-- All variables handed out by the manager during `EncodingVars::new`. -/
def EncodingVars.allocatedVars (vars : EncodingVars) : List Var :=
  vars.grid.data.flatMap tileVarsList

/-- Number of terrain cells of a world grid. -/
def terrainCellCount (world : Grid Bool) : Nat := world.data.countP id

theorem range'_append_plain (s m n : Nat) :
    List.range' s m ++ List.range' (s + m) n = List.range' s (m + n) := by
  have h := List.range'_append s m n 1
  rw [Nat.add_comm m n]
  simpa using h

theorem tileVarsList_mkTile (dimKeys : List Dimensions) (isT : Bool) (c : Var) :
    tileVarsList (mkTile dimKeys isT c) =
      List.range' c (tileVarCount dimKeys.length isT) := by
  have hzip : ((dimKeys.zip (List.range' c dimKeys.length)).map (·.2)) =
      List.range' c dimKeys.length := by
    apply List.map_snd_zip
    simp
  cases isT <;>
    simp [tileVarsList, mkTile, tileVarCount, hzip, range'_append_plain] <;>
    try omega

theorem allocTiles_length (dimKeys : List Dimensions) (world : Grid Bool) :
    ∀ (ps : List Point) (c : Var), (allocTiles dimKeys world ps c).length = ps.length := by
  intro ps
  induction ps with
  | nil => intro c; rfl
  | cons p ps ih => intro c; simp [allocTiles, ih]

theorem allocTiles_flatMap (dimKeys : List Dimensions) (world : Grid Bool) :
    ∀ (ps : List Point) (c : Var),
      (allocTiles dimKeys world ps c).flatMap tileVarsList =
        List.range' c (allocTotal dimKeys world ps) := by
  intro ps
  induction ps with
  | nil => intro c; simp [allocTiles, allocTotal]
  | cons p ps ih =>
    intro c
    rw [allocTiles, allocTotal, List.flatMap_cons, ih, tileVarsList_mkTile,
      range'_append_plain]

theorem allocTotal_eq (dimKeys : List Dimensions) (world : Grid Bool) :
    ∀ ps : List Point,
      allocTotal dimKeys world ps =
        ps.length * dimKeys.length +
          TERRAIN_SUPPORT_DISTANCE * ps.countP (fun p => (world.get p).getD false) := by
  intro ps
  induction ps with
  | nil => simp [allocTotal]
  | cons p ps ih =>
    rw [allocTotal, ih, List.countP_cons]
    cases h : (world.get p).getD false <;>
      simp [tileVarCount, h, Nat.succ_mul, TERRAIN_SUPPORT_DISTANCE] <;> omega

theorem allocTiles_get? (dimKeys : List Dimensions) (world : Grid Bool) :
    ∀ (ps : List Point) (c : Var) (i : Nat), i < ps.length →
      (allocTiles dimKeys world ps c).get? i =
        (ps.get? i).map
          (fun p => mkTile dimKeys ((world.get p).getD false)
            (c + allocTotal dimKeys world (ps.take i))) := by
  intro ps
  induction ps with
  | nil => intro c i hi; simp at hi
  | cons p ps ih =>
    intro c i hi
    cases i with
    | zero => simp [allocTiles, allocTotal]
    | succ j =>
      rw [allocTiles]
      simp only [List.get?_cons_succ, List.take_succ_cons]
      have hj : j < ps.length := by
        simp only [List.length_cons] at hi
        omega
      rw [ih _ j hj, allocTotal, Nat.add_assoc]

theorem contains_toNat (d : Dimensions) (p : Point) (h : d.contains p = true) :
    p.x.toNat < d.width ∧ p.y.toNat < d.height ∧
      (p.x.toNat : Int) = p.x ∧ (p.y.toNat : Int) = p.y := by
  simp only [Dimensions.contains, Bool.and_eq_true, decide_eq_true_eq] at h
  omega

theorem iterWithin_get?_index (d : Dimensions) (p : Point)
    (h : d.contains p = true) :
    d.iterWithin.get? (p.x.toNat + p.y.toNat * d.width) = some p := by
  obtain ⟨hx, hy, hcx, hcy⟩ := contains_toNat d p h
  have hw : 0 < d.width := by omega
  rw [Dimensions.iterWithin_get? d _ hw (Grid.contains_index_lt d p h)]
  have h1 : (p.x.toNat + p.y.toNat * d.width) % d.width = p.x.toNat := by
    rw [Nat.add_mul_mod_self_right, Nat.mod_eq_of_lt hx]
  have h2 : (p.x.toNat + p.y.toNat * d.width) / d.width = p.y.toNat := by
    rw [Nat.add_mul_div_right _ _ hw, Nat.div_eq_of_lt hx]
    omega
  rw [h1, h2]
  rcases p with ⟨px, py⟩
  simp only [Option.some.injEq, Point.mk.injEq]
  exact ⟨hcx, hcy⟩

theorem grid_get_indexToPoint {α : Type} (g : Grid α) (hg : g.Wf) (i : Nat)
    (hi : i < g.data.length) : g.get (g.indexToPoint i) = g.data.get? i := by
  have hw : 0 < g.dims.width := by
    rcases hg with ⟨hlen, hw | hh⟩
    · exact hw
    · rw [hh, Nat.mul_zero] at hlen
      omega
  have hcon : g.dims.contains (g.indexToPoint i) = true := by
    simp only [Grid.indexToPoint, Dimensions.contains, Bool.and_eq_true,
      decide_eq_true_eq]
    have hiwh : i < g.dims.width * g.dims.height := by
      rw [← hg.1]
      exact hi
    have hmod : i % g.dims.width < g.dims.width := Nat.mod_lt _ hw
    have hdiv : i / g.dims.width < g.dims.height := by
      rw [Nat.div_lt_iff_lt_mul hw]
      calc i < g.dims.width * g.dims.height := hiwh
        _ = g.dims.height * g.dims.width := Nat.mul_comm _ _
    refine ⟨⟨⟨Int.natCast_nonneg _, ?_⟩, Int.natCast_nonneg _⟩, ?_⟩
    · exact_mod_cast hmod
    · exact_mod_cast hdiv
  rw [Grid.get_eq_of_contains _ _ hcon]
  congr 1
  simp only [Grid.indexToPoint, Int.toNat_natCast]
  rw [Nat.mod_add_div']

theorem iterWithin_map_get (world : Grid Bool) (hwf : world.Wf) :
    world.dims.iterWithin.map (fun p => (world.get p).getD false) = world.data := by
  apply List.ext_get?
  intro i
  have hlen : world.dims.iterWithin.length = world.data.length := by
    rw [Dimensions.iterWithin_length _ hwf.2, hwf.1]
  rcases Nat.lt_or_ge i world.data.length with hi | hi
  · rw [List.get?_map]
    have hit := Grid.iterWithin_get_indexToPoint world hwf i hi
    rw [hit]
    simp only [Option.map_some']
    rw [grid_get_indexToPoint world hwf i hi]
    rw [List.get?_eq_getElem?, List.getElem?_eq_getElem hi]
    rfl
  · rw [List.get?_eq_none.mpr (by simp; omega), List.get?_eq_none.mpr (by omega)]

theorem terrainCellCount_eq (world : Grid Bool) (hwf : world.Wf) :
    world.dims.iterWithin.countP (fun p => (world.get p).getD false) =
      terrainCellCount world := by
  rw [terrainCellCount, ← iterWithin_map_get world hwf, List.countP_map]
  rfl

/-- The `Var → EncodedItem` pairs recorded for one tile, in insertion
order. -/
def tileEntries (p : Point) (t : EncodingTileVars) : List (Var × EncodedItem) :=
  t.dimsVars.map (fun dv => (dv.2, EncodedItem.platform p dv.1)) ++
    (t.terrain.getD []).enum.map (fun lv => (lv.2, EncodedItem.terrain p lv.1))

theorem tileEntries_keys (p : Point) (t : EncodingTileVars) :
    (tileEntries p t).map (·.1) = tileVarsList t := by
  simp only [tileEntries, tileVarsList, List.map_append, List.map_map]
  congr 1
  have := List.enum_map_snd (t.terrain.getD [])
  calc ((t.terrain.getD []).enum.map
          ((fun x => x.1) ∘ fun lv => (lv.2, EncodedItem.terrain p lv.1))) =
      (t.terrain.getD []).enum.map Prod.snd := by
        apply List.map_congr_left
        intro a _
        rfl
    _ = t.terrain.getD [] := this

theorem assocInsert_of_fresh (m : List (Var × EncodedItem)) (k : Var)
    (v : EncodedItem) (h : ∀ kv ∈ m, kv.1 ≠ k) :
    assocInsert m k v = m ++ [(k, v)] := by
  induction m with
  | nil => rfl
  | cons kv rest ih =>
    rw [assocInsert]
    rw [if_neg (h kv (by simp))]
    rw [List.cons_append]
    congr 1
    exact ih (fun kv' hkv' => h kv' (by simp [hkv']))

theorem foldl_assocInsert_fresh :
    ∀ (l m : List (Var × EncodedItem)),
      (∀ kv ∈ l, ∀ kv' ∈ m, kv'.1 ≠ kv.1) → (l.map (·.1)).Nodup →
      l.foldl (fun acc kv => assocInsert acc kv.1 kv.2) m = m ++ l := by
  intro l
  induction l with
  | nil => intro m _ _; simp
  | cons kv rest ih =>
    intro m hfresh hnd
    rw [List.foldl_cons, assocInsert_of_fresh m kv.1 kv.2
      (fun kv' h' => hfresh kv (by simp) kv' h')]
    rw [ih (m ++ [(kv.1, kv.2)]) ?_ ?_]
    · simp
    · intro kv2 h2 kv' h'
      rcases List.mem_append.mp h' with h' | h'
      · exact hfresh kv2 (by simp [h2]) kv' h'
      · simp only [List.mem_singleton] at h'
        subst h'
        simp only [List.map_cons, List.nodup_cons] at hnd
        intro hcontra
        exact hnd.1 (hcontra ▸ List.mem_map_of_mem (·.1) h2)
    · simp only [List.map_cons, List.nodup_cons] at hnd
      exact hnd.2

theorem addTileEntries_eq (m : List (Var × EncodedItem)) (p : Point)
    (t : EncodingTileVars)
    (hfresh : ∀ v ∈ tileVarsList t, ∀ kv' ∈ m, kv'.1 ≠ v)
    (hnd : (tileVarsList t).Nodup) :
    addTileEntries m (p, t) = m ++ tileEntries p t := by
  set l1 := t.dimsVars.map (fun dv => (dv.2, EncodedItem.platform p dv.1)) with hl1
  set l2 := (t.terrain.getD []).enum.map
    (fun lv => (lv.2, EncodedItem.terrain p lv.1)) with hl2
  have hkeys : l1.map (·.1) ++ l2.map (·.1) = tileVarsList t := by
    rw [← List.map_append, hl1, hl2, ← tileEntries, tileEntries_keys]
  have hnd' : (l1.map (·.1) ++ l2.map (·.1)).Nodup := by
    rw [hkeys]
    exact hnd
  obtain ⟨hnd1, hnd2, hdisj⟩ := List.nodup_append.mp hnd'
  have hfr : ∀ v ∈ l1.map (·.1) ++ l2.map (·.1), ∀ kv' ∈ m, kv'.1 ≠ v := by
    rw [hkeys]
    exact hfresh
  have step1 :
      t.dimsVars.foldl
          (fun acc dv => assocInsert acc dv.2 (EncodedItem.platform p dv.1)) m =
        m ++ l1 := by
    have hfa : ∀ kv ∈ l1, ∀ kv' ∈ m, kv'.1 ≠ kv.1 := fun kv hkv kv' hkv' =>
      hfr kv.1 (List.mem_append_left _ (List.mem_map_of_mem (·.1) hkv)) kv' hkv'
    have h0 := foldl_assocInsert_fresh l1 m hfa hnd1
    rw [hl1, List.foldl_map] at h0
    exact h0
  have step2 :
      (t.terrain.getD []).enum.foldl
          (fun acc lv => assocInsert acc lv.2 (EncodedItem.terrain p lv.1))
          (m ++ l1) =
        (m ++ l1) ++ l2 := by
    have hfa : ∀ kv ∈ l2, ∀ kv' ∈ m ++ l1, kv'.1 ≠ kv.1 := by
      intro kv hkv kv' hkv'
      rcases List.mem_append.mp hkv' with h' | h'
      · exact hfr kv.1 (List.mem_append_right _ (List.mem_map_of_mem (·.1) hkv)) kv' h'
      · intro hcontra
        exact (List.disjoint_right.mp hdisj (List.mem_map_of_mem (·.1) hkv))
          (hcontra ▸ List.mem_map_of_mem (·.1) h')
    have h0 := foldl_assocInsert_fresh l2 (m ++ l1) hfa hnd2
    rw [hl2, List.foldl_map] at h0
    exact h0
  show (t.terrain.getD []).enum.foldl
      (fun acc lv => assocInsert acc lv.2 (EncodedItem.terrain p lv.1))
      (t.dimsVars.foldl
        (fun acc dv => assocInsert acc dv.2 (EncodedItem.platform p dv.1)) m) =
    m ++ tileEntries p t
  rw [step1, step2, tileEntries, ← hl1, ← hl2, List.append_assoc]

theorem buildVarMap_foldl :
    ∀ (tiles : List (Point × EncodingTileVars)) (m : List (Var × EncodedItem)),
      (∀ pt ∈ tiles, ∀ v ∈ tileVarsList pt.2, ∀ kv' ∈ m, kv'.1 ≠ v) →
      ((tiles.flatMap (fun pt => tileVarsList pt.2)).Nodup) →
      tiles.foldl addTileEntries m =
        m ++ tiles.flatMap (fun pt => tileEntries pt.1 pt.2) := by
  intro tiles
  induction tiles with
  | nil => intro m _ _; simp
  | cons pt rest ih =>
    intro m hfresh hnd
    rw [List.flatMap_cons] at hnd
    have hnd1 := (List.nodup_append.mp hnd).1
    have hnd2 := (List.nodup_append.mp hnd).2.1
    have hdisj := (List.nodup_append.mp hnd).2.2
    rw [List.foldl_cons]
    have h1 : addTileEntries m pt = m ++ tileEntries pt.1 pt.2 := by
      have := addTileEntries_eq m pt.1 pt.2
        (fun v hv kv' hkv' => hfresh pt (by simp) v hv kv' hkv') hnd1
      rw [← this]
    rw [h1, ih (m ++ tileEntries pt.1 pt.2) ?_ hnd2, List.flatMap_cons,
      List.append_assoc]
    intro pt' hpt' v hv kv' hkv'
    rcases List.mem_append.mp hkv' with h' | h'
    · exact hfresh pt' (by simp [hpt']) v hv kv' h'
    · intro hcontra
      have hv' : v ∈ rest.flatMap (fun pt => tileVarsList pt.2) :=
        List.mem_flatMap.mpr ⟨pt', hpt', hv⟩
      have hk : kv'.1 ∈ tileVarsList pt.2 := by
        rw [← tileEntries_keys pt.1]
        exact List.mem_map_of_mem (·.1) h'
      exact (List.disjoint_left.mp hdisj hk) (hcontra ▸ hv')

theorem enumerate_flatMap_snd {α : Type} (g : Grid α)
    (f : α → List Var) :
    g.enumerate.flatMap (fun pt => f pt.2) = g.data.flatMap f := by
  rw [Grid.enumerate, List.flatMap_map]
  show g.data.enum.flatMap (fun iv => f iv.2) = g.data.flatMap f
  calc g.data.enum.flatMap (fun iv => f iv.2) =
      (g.data.enum.map Prod.snd).flatMap f := by
        rw [List.flatMap_map]
    _ = g.data.flatMap f := by rw [List.enum_map_snd]

theorem new_allocatedVars (defs : List PlatformDef) (world : Grid Bool) :
    (EncodingVars.new defs world).allocatedVars =
      List.range' 0
        (allocTotal ((dimsPlatformMap defs).map (·.1)) world world.dims.iterWithin) := by
  rw [EncodingVars.allocatedVars, EncodingVars.new, allocTiles_flatMap]

theorem new_varMap_eq (defs : List PlatformDef) (world : Grid Bool) :
    (EncodingVars.new defs world).varMap =
      (EncodingVars.new defs world).grid.enumerate.flatMap
        (fun pt => tileEntries pt.1 pt.2) := by
  have hflat :
      ((EncodingVars.new defs world).grid.enumerate.flatMap
        (fun pt => tileVarsList pt.2)) =
        (EncodingVars.new defs world).allocatedVars := by
    rw [EncodingVars.allocatedVars, enumerate_flatMap_snd]
  have hnd : ((EncodingVars.new defs world).grid.enumerate.flatMap
      (fun pt => tileVarsList pt.2)).Nodup := by
    rw [hflat, new_allocatedVars]
    exact List.nodup_range' _ _
  calc (EncodingVars.new defs world).varMap
      = (EncodingVars.new defs world).grid.enumerate.foldl addTileEntries [] := rfl
    _ = [] ++ (EncodingVars.new defs world).grid.enumerate.flatMap
          (fun pt => tileEntries pt.1 pt.2) :=
        buildVarMap_foldl _ [] (by simp) hnd
    _ = (EncodingVars.new defs world).grid.enumerate.flatMap
          (fun pt => tileEntries pt.1 pt.2) := by simp

theorem new_varMap_keys (defs : List PlatformDef) (world : Grid Bool) :
    ((EncodingVars.new defs world).varMap.map (·.1)) =
      (EncodingVars.new defs world).allocatedVars := by
  rw [new_varMap_eq, List.map_flatMap]
  have : ∀ pt : Point × EncodingTileVars,
      (tileEntries pt.1 pt.2).map (·.1) = tileVarsList pt.2 :=
    fun pt => tileEntries_keys pt.1 pt.2
  calc ((EncodingVars.new defs world).grid.enumerate.flatMap
        (fun pt => (tileEntries pt.1 pt.2).map (·.1))) =
      (EncodingVars.new defs world).grid.enumerate.flatMap
        (fun pt => tileVarsList pt.2) := by
        apply List.flatMap_congr
        intro pt _
        exact this pt
    _ = (EncodingVars.new defs world).allocatedVars := by
        rw [EncodingVars.allocatedVars, enumerate_flatMap_snd]

theorem new_tileAt (defs : List PlatformDef) (world : Grid Bool) (hwf : world.Wf)
    (p : Point) (hp : world.dims.contains p = true) :
    (EncodingVars.new defs world).tileAt p =
      some (mkTile ((dimsPlatformMap defs).map (·.1)) ((world.get p).getD false)
        (allocTotal ((dimsPlatformMap defs).map (·.1)) world
          (world.dims.iterWithin.take (p.x.toNat + p.y.toNat * world.dims.width)))) := by
  have hw : 0 < world.dims.width := by
    have := contains_toNat world.dims p hp
    omega
  have hidx : p.x.toNat + p.y.toNat * world.dims.width <
      world.dims.iterWithin.length := by
    rw [Dimensions.iterWithin_length _ hwf.2]
    exact Grid.contains_index_lt world.dims p hp
  show (EncodingVars.new defs world).grid.get p = _
  have hcon : (EncodingVars.new defs world).grid.dims.contains p = true := hp
  rw [Grid.get_eq_of_contains _ _ hcon]
  show (allocTiles ((dimsPlatformMap defs).map (·.1)) world
      world.dims.iterWithin 0).get? (p.x.toNat + p.y.toNat * world.dims.width) = _
  rw [allocTiles_get? _ _ _ 0 _ hidx, iterWithin_get?_index world.dims p hp]
  simp

/-- C5: `EncodingVars::new` allocates exactly
`|W| · |S(C)| + #terrain · K` variables, all distinct, and the inverse
`var_map` holds exactly one record per allocated variable and no
others (its key list equals the allocation list, without
duplicates). -/
theorem c5_encoding_vars_allocation (defs : List PlatformDef) (world : Grid Bool)
    (hwf : world.Wf) :
    ((EncodingVars.new defs world).allocatedVars.length =
        (world.dims.width * world.dims.height) * (dimsPlatformMap defs).length +
          terrainCellCount world * TERRAIN_SUPPORT_DISTANCE) ∧
    (EncodingVars.new defs world).allocatedVars.Nodup ∧
    ((EncodingVars.new defs world).varMap.map (·.1)).Nodup ∧
    (∀ v : Var, v ∈ (EncodingVars.new defs world).varMap.map (·.1) ↔
      v ∈ (EncodingVars.new defs world).allocatedVars) := by
  have hlen : (EncodingVars.new defs world).allocatedVars.length =
      (world.dims.width * world.dims.height) * (dimsPlatformMap defs).length +
        terrainCellCount world * TERRAIN_SUPPORT_DISTANCE := by
    rw [new_allocatedVars, List.length_range', allocTotal_eq,
      Dimensions.iterWithin_length _ hwf.2, terrainCellCount_eq world hwf,
      List.length_map]
    ring
  refine ⟨hlen, ?_, ?_, ?_⟩
  · rw [new_allocatedVars]
    exact List.nodup_range' _ _
  · rw [new_varMap_keys, new_allocatedVars]
    exact List.nodup_range' _ _
  · intro v
    rw [new_varMap_keys]

/-- Witness for C5 at a concrete catalog and world. -/
theorem c5_encoding_vars_allocation_witness :
    (Grid.Wf (⟨[true, false, true, true], ⟨2, 2⟩⟩ : Grid Bool)) ∧
    (((EncodingVars.new [⟨⟨1, 1⟩⟩, ⟨⟨1, 2⟩⟩]
          (⟨[true, false, true, true], ⟨2, 2⟩⟩ : Grid Bool)).allocatedVars.length =
        (2 * 2) * (dimsPlatformMap [⟨⟨1, 1⟩⟩, ⟨⟨1, 2⟩⟩]).length +
          terrainCellCount (⟨[true, false, true, true], ⟨2, 2⟩⟩ : Grid Bool) *
            TERRAIN_SUPPORT_DISTANCE) ∧
      (EncodingVars.new [⟨⟨1, 1⟩⟩, ⟨⟨1, 2⟩⟩]
          (⟨[true, false, true, true], ⟨2, 2⟩⟩ : Grid Bool)).allocatedVars.Nodup ∧
      ((EncodingVars.new [⟨⟨1, 1⟩⟩, ⟨⟨1, 2⟩⟩]
          (⟨[true, false, true, true], ⟨2, 2⟩⟩ : Grid Bool)).varMap.map (·.1)).Nodup ∧
      (∀ v : Var, v ∈ (EncodingVars.new [⟨⟨1, 1⟩⟩, ⟨⟨1, 2⟩⟩]
            (⟨[true, false, true, true], ⟨2, 2⟩⟩ : Grid Bool)).varMap.map (·.1) ↔
          v ∈ (EncodingVars.new [⟨⟨1, 1⟩⟩, ⟨⟨1, 2⟩⟩]
            (⟨[true, false, true, true], ⟨2, 2⟩⟩ : Grid Bool)).allocatedVars)) :=
  ⟨by constructor <;> simp [Grid.Wf],
    c5_encoding_vars_allocation [⟨⟨1, 1⟩⟩, ⟨⟨1, 2⟩⟩] _
      (by constructor <;> simp [Grid.Wf])⟩

/-- `EncodingNode` (`src/encoder.rs`). -/
inductive EncodingNode where
  | platform (dims : Dimensions)
  | point (p : Point)
deriving DecidableEq, Repr

/-- `PartialOrd for EncodingNode`: platform/platform inherits the
`Dimensions` order; a point is below exactly the platforms whose
footprint contains it; two points are equal or incomparable. -/
def EncodingNode.pcmpN (a b : EncodingNode) : Option Ordering :=
  match a, b with
  | .platform d1, .platform d2 => d1.pcmp d2
  | .platform d, .point p => if d.contains p then some .gt else none
  | .point p, .platform d => if d.contains p then some .lt else none
  | .point p1, .point p2 => if p1 = p2 then some .eq else none

/-- Rust's `a < b` on `EncodingNode`. -/
def EncodingNode.ltN (a b : EncodingNode) : Bool :=
  decide (a.pcmpN b = some .lt)

theorem Dimensions.contains_of_lt (db dc : Dimensions) (p : Point)
    (h1 : db.contains p = true) (hlt : db.pcmp dc = some .lt) :
    dc.contains p = true := by
  rw [Dimensions.pcmp_eq_lt_iff] at hlt
  simp only [Dimensions.contains, Bool.and_eq_true, decide_eq_true_eq] at h1 ⊢
  omega

theorem EncodingNode.ltN_trans {a b c : EncodingNode}
    (h1 : EncodingNode.ltN a b = true) (h2 : EncodingNode.ltN b c = true) :
    EncodingNode.ltN a c = true := by
  rcases a with da | pa <;> rcases b with db | pb <;> rcases c with dc | pc <;>
    simp only [ltN, pcmpN, decide_eq_true_eq] at h1 h2 ⊢
  · rw [Dimensions.pcmp_eq_lt_iff] at h1 h2 ⊢
    omega
  · split_ifs at h2 <;> simp_all
  · split_ifs at h1 <;> simp_all
  · split_ifs at h1 <;> simp_all
  · split_ifs at h1 with hcon
    rw [if_pos (Dimensions.contains_of_lt db dc pa hcon h2)]
  · split_ifs at h2 <;> simp_all
  · split_ifs at h1 <;> simp_all
  · split_ifs at h1 <;> simp_all

/-- The fold computing `dims_max` in `EncodingDag::new`. -/
def dimsMaxFold (platformDims : List Dimensions) : Dimensions :=
  platformDims.foldl
    (fun acc d => ⟨max acc.width d.width, max acc.height d.height⟩) ⟨1, 1⟩

/-- The node set of the encoding DAG: every footprint dimension plus
every offset point of the maximal enclosing rectangle, with nodes
lacking any incident edge pruned (`retain_nodes`; removing an isolated
node never changes another node's incidence, so the filter against the
seeded list is the same set). -/
def dagNodes (platformDims : List Dimensions) : List EncodingNode :=
  (platformDims.map EncodingNode.platform ++
      (dimsMaxFold platformDims).iterWithin.map EncodingNode.point).filter
    (fun n =>
      (platformDims.map EncodingNode.platform ++
          (dimsMaxFold platformDims).iterWithin.map EncodingNode.point).any
        (fun m => EncodingNode.ltN m n || EncodingNode.ltN n m))

/-- The transitive closure `C` of the DAG.  `dag_by_partial_ord` adds
an edge `other → this` exactly when `other < this`, so the edge set is
the strict order itself; being transitive (`EncodingNode.ltN_trans`)
it equals its own closure, which is what
`dag_transitive_reduction_closure` returns. -/
def closureEdge (a b : EncodingNode) : Bool := EncodingNode.ltN a b

/-- The transitive reduction `R` of the DAG: for a transitively closed
DAG the (unique) reduction keeps exactly the covering pairs — those
`a < b` with no retained node strictly between. -/
def reducedEdge (nodes : List EncodingNode) (a b : EncodingNode) : Bool :=
  EncodingNode.ltN a b &&
    !(nodes.any (fun c => EncodingNode.ltN a c && EncodingNode.ltN c b))

/-- `EncodingDag::iter_platform_edges_reduced` (source smaller, target
larger). -/
def iterPlatformEdgesReduced (nodes : List EncodingNode) :
    List (Dimensions × Dimensions) :=
  nodes.flatMap (fun a => nodes.filterMap (fun b =>
    match a, b with
    | .platform da, .platform db =>
      if reducedEdge nodes a b then some (da, db) else none
    | _, _ => none))

/-- `EncodingDag::iter_point_platform_edges_reduced`. -/
def iterPointPlatformEdgesReduced (nodes : List EncodingNode) :
    List (Point × Dimensions) :=
  nodes.flatMap (fun a => nodes.filterMap (fun b =>
    match a, b with
    | .point pa, .platform db =>
      if reducedEdge nodes a b then some (pa, db) else none
    | _, _ => none))

/-- The reduced platform out-targets of one platform node
(`iter_platform_targets_by_source`, one entry). -/
def platformTargets (nodes : List EncodingNode) (a : EncodingNode) :
    List Dimensions :=
  nodes.filterMap (fun b =>
    match b with
    | .platform db => if reducedEdge nodes a b then some db else none
    | _ => none)

/-- `Itertools::tuple_combinations` over pairs. -/
def pairsOfList {α : Type} : List α → List (α × α)
  | [] => []
  | x :: xs => xs.map (fun y => (x, y)) ++ pairsOfList xs

/-- The incomparable pairs considered by `encode`: ordered pairs of
distinct reduced platform out-targets of each platform node. -/
def soundnessPairs (nodes : List EncodingNode) : List (Dimensions × Dimensions) :=
  nodes.flatMap (fun n =>
    match n with
    | .platform _ => pairsOfList (platformTargets nodes n)
    | _ => [])

/-- `EncodingDag::common_platform_successors`. -/
def commonPlatformSuccessors (nodes : List EncodingNode) (a b : EncodingNode) :
    List Dimensions :=
  nodes.filterMap (fun c =>
    match c with
    | .platform dc =>
      if closureEdge a c && closureEdge b c then some dc else none
    | _ => none)

/-- `EncodingDag::maximal_from`: keeps the members of `indices` having
no member `m` with a closure edge `m → n`. -/
def maximalFrom (indices : List EncodingNode) : List EncodingNode :=
  indices.filter (fun n => !(indices.any (fun m => closureEdge m n)))

/-- The disjuncts of one soundness clause in `encode`: the common
platform successors filtered by membership in `maximal_from`. -/
def soundDisjuncts (nodes : List EncodingNode) (da db : Dimensions) :
    List Dimensions :=
  (commonPlatformSuccessors nodes (.platform da) (.platform db)).filter
    (fun dc =>
      EncodingNode.platform dc ∈
        maximalFrom ((commonPlatformSuccessors nodes
          (.platform da) (.platform db)).map EncodingNode.platform))

/-- `current_vars.for_dims(d).unwrap()` / `v.dims_vars[&d]`: the
variable lookup whose panic path (absent key) is modelled by the 0
default; the theorems' hypotheses put every use on the present path. -/
def dimsVarAt (vars : EncodingVars) (p : Point) (d : Dimensions) : Var :=
  ((vars.tileAt p).bind (·.forDims d)).getD 0

/-- The terrain-layer variable array of a tile, if any. -/
def terrainVarsAt (vars : EncodingVars) (p : Point) : Option (List Var) :=
  (vars.tileAt p).bind (·.terrain)

/-- The layer-`i` terrain variable of a tile (0 default on the
impossible out-of-range path). -/
def terrainVar (vars : EncodingVars) (p : Point) (i : Nat) : Var :=
  ((terrainVarsAt vars p).getD []).getD i 0

/-- Clause family (a) for one tile: the size-implication chain
`P(p, larger) → P(p, smaller)` over reduced platform edges. -/
def implClauses (vars : EncodingVars) (nodes : List EncodingNode) (p : Point) :
    List Clause :=
  (iterPlatformEdgesReduced nodes).map (fun sl =>
    [negLit (dimsVarAt vars p sl.2), posLit (dimsVarAt vars p sl.1)])

/-- Clause family (b) for one tile: the incomparable-pair soundness
disjunctions `¬P(p,a) ∨ ¬P(p,b) ∨ ⋁ P(p,c)`. -/
def soundClauses (vars : EncodingVars) (nodes : List EncodingNode) (p : Point) :
    List Clause :=
  (soundnessPairs nodes).map (fun ab =>
    negLit (dimsVarAt vars p ab.1) :: negLit (dimsVarAt vars p ab.2) ::
      (soundDisjuncts nodes ab.1 ab.2).map (fun dc => posLit (dimsVarAt vars p dc)))

/-- Clause family (d) for one tile: the platform↔terrain binding
`T(p, K-1) → ⋁ P(p - off, d)`, one disjunct per reduced
point→platform edge whose source lands in bounds. -/
def bindingClauses (vars : EncodingVars) (nodes : List EncodingNode) (p : Point) :
    List Clause :=
  match terrainVarsAt vars p with
  | none => []
  | some tv =>
    [negLit (tv.getD (TERRAIN_SUPPORT_DISTANCE - 1) 0) ::
      (iterPointPlatformEdgesReduced nodes).filterMap (fun od =>
        (vars.tileAt (p.sub od.1)).map
          (fun t => posLit ((t.forDims od.2).getD 0)))]

/-- Clause family (c) for one tile: the terrain-support diffusion
implications and the topmost-layer unit. -/
def diffusionClauses (vars : EncodingVars) (p : Point) : List Clause :=
  match terrainVarsAt vars p with
  | none => []
  | some tv =>
    ((List.range (TERRAIN_SUPPORT_DISTANCE - 1)).map (fun i =>
      negLit (tv.getD i 0) ::
        ((p.neighbors.filterMap (fun n => terrainVarsAt vars n)) ++ [tv]).map
          (fun l => posLit (l.getD (i + 1) 0))))
    ++ [[posLit (tv.getD 0 0)]]

/-- All clauses `encode` emits for one tile, in emission order. -/
def tileClauses (vars : EncodingVars) (nodes : List EncodingNode) (p : Point) :
    List Clause :=
  implClauses vars nodes p ++ soundClauses vars nodes p ++
    bindingClauses vars nodes p ++ diffusionClauses vars p

/-- `encode` (`src/encoder.rs`): builds the variable table, the DAG
over the catalog's footprint dimensions, and emits the clause families
per world tile in row-major order. -/
def encode (defs : List PlatformDef) (world : Grid Bool) :
    EncodingVars × List Clause :=
  let vars := EncodingVars.new defs world
  let nodes := dagNodes (vars.dimMap.map (·.1))
  (vars, world.dims.iterWithin.flatMap (tileClauses vars nodes))

/-- A solver assignment: `TernaryVal` per variable index. -/
abbrev Assignment := List (Option Bool)

/-- Truth value of a literal under an assignment (an unassigned or
out-of-range variable satisfies no literal). -/
def litValue (asg : Assignment) (l : Lit) : Bool :=
  match asg.getD l.var none with
  | some b => b == l.pos
  | none => false

def clauseSat (asg : Assignment) (c : Clause) : Bool := c.any (litValue asg)

def cnfSat (asg : Assignment) (cs : List Clause) : Bool := cs.all (clauseSat asg)

/-- The positively assigned variables, in variable order
(`assignment.iter()` filtered to positive literals). -/
def assignmentPosVars (asg : Assignment) : List Var :=
  asg.enum.filterMap (fun vo => vo.2.bind (fun b => if b then some vo.1 else none))

/-- One `platforms.entry(plat.point()).and_modify(...).or_insert(plat)`
step of `PlatformLayout::from_assignment`: the stored platform is
replaced only when its `def().dims()` is strictly below the new
platform's `def().dims()`. -/
def layoutInsert (m : List (Point × Platform)) (plat : Platform) :
    List (Point × Platform) :=
  match m with
  | [] => [(plat.point, plat)]
  | (k, prev) :: rest =>
    if k = plat.point then
      (k, if prev.pdef.dims.dltB plat.pdef.dims then plat else prev) :: rest
    else (k, prev) :: layoutInsert rest plat

/-- `PlatformLayout` (`src/encoder/platform_layout.rs`). -/
structure PlatformLayout where
  platforms : List (Point × Platform)
deriving DecidableEq, Repr

/-- `PlatformLayout::from_assignment`: fold the positively assigned
platform variables into the per-origin map. -/
def PlatformLayout.fromAssignment (asg : Assignment) (vars : EncodingVars) :
    PlatformLayout :=
  ⟨(assignmentPosVars asg).foldl
    (fun m v =>
      match vars.varToPlatform v with
      | some plat => layoutInsert m plat
      | none => m) []⟩

/-- `HashMap::get` on a layout. -/
def layoutGet (m : List (Point × Platform)) (p : Point) : Option Platform :=
  (m.find? (fun kv => kv.1 = p)).map (·.2)

/-- The effective footprint dimensions of the platform-placement
variables assigned true at origin `p`. -/
def truePlatformDimsAt (asg : Assignment) (vars : EncodingVars) (p : Point) :
    List Dimensions :=
  (assignmentPosVars asg).filterMap (fun v =>
    match varMapGet vars.varMap v with
    | some (.platform q d) => if q = p then some d else none
    | _ => none)

/-- The platforms decoded from the variables assigned true at origin
`p` (the group that `from_assignment` folds for key `p`). -/
def truePlatformsAt (asg : Assignment) (vars : EncodingVars) (p : Point) :
    List Platform :=
  (assignmentPosVars asg).filterMap (fun v =>
    (vars.varToPlatform v).bind (fun plat =>
      if plat.point = p then some plat else none))

theorem layoutGet_insert_ne (m : List (Point × Platform)) (plat : Platform)
    (q : Point) (h : q ≠ plat.point) :
    layoutGet (layoutInsert m plat) q = layoutGet m q := by
  induction m with
  | nil =>
    simp only [layoutInsert, layoutGet, List.find?]
    rw [decide_eq_false (fun hc => h hc.symm)]
  | cons kv rest ih =>
    obtain ⟨k, prev⟩ := kv
    rw [layoutInsert]
    by_cases hk : k = plat.point
    · rw [if_pos hk]
      simp only [layoutGet, List.find?]
      rw [decide_eq_false (fun hc : k = q => h (hk ▸ hc).symm)]
    · rw [if_neg hk]
      simp only [layoutGet, List.find?] at ih ⊢
      cases hd : decide (k = q)
      · simp only [cond_false]
        exact ih
      · rfl

theorem layoutGet_insert_none (m : List (Point × Platform)) (plat : Platform)
    (h : layoutGet m plat.point = none) :
    layoutGet (layoutInsert m plat) plat.point = some plat := by
  induction m with
  | nil => simp [layoutInsert, layoutGet, List.find?]
  | cons kv rest ih =>
    obtain ⟨k, prev⟩ := kv
    simp only [layoutGet, List.find?] at h
    by_cases hk : k = plat.point
    · rw [decide_eq_true (by simp [hk])] at h
      simp at h
    · rw [layoutInsert, if_neg hk]
      simp only [layoutGet, List.find?]
      rw [decide_eq_false (by simp [hk])] at h ⊢
      simp only [cond_false] at h ⊢
      exact ih h

theorem layoutGet_insert_some (m : List (Point × Platform)) (plat : Platform)
    (x : Platform) (h : layoutGet m plat.point = some x) :
    layoutGet (layoutInsert m plat) plat.point =
      some (if x.pdef.dims.dltB plat.pdef.dims then plat else x) := by
  induction m with
  | nil => simp [layoutGet, List.find?] at h
  | cons kv rest ih =>
    obtain ⟨k, prev⟩ := kv
    simp only [layoutGet, List.find?] at h
    by_cases hk : k = plat.point
    · rw [decide_eq_true (by simp [hk])] at h
      simp only [cond_true, Option.map_some'] at h
      obtain rfl : prev = x := by simpa using h
      rw [layoutInsert, if_pos hk]
      simp only [layoutGet, List.find?]
      rw [decide_eq_true (by simp [hk])]
      rfl
    · rw [decide_eq_false (by simp [hk])] at h
      simp only [cond_false] at h
      rw [layoutInsert, if_neg hk]
      simp only [layoutGet, List.find?]
      rw [decide_eq_false (by simp [hk])]
      simp only [cond_false]
      exact ih h

/-- Invariant of the decoding fold: the map holds, for every origin,
a member of the processed group whose `def` dims are not strictly
below any processed group member's. -/
def DecodeInv (l : List Platform) (m : List (Point × Platform)) : Prop :=
  ∀ p : Point,
    (layoutGet m p = none → ∀ q ∈ l, q.point ≠ p) ∧
    ∀ x, layoutGet m p = some x →
      x.point = p ∧ x ∈ l ∧
        ∀ q ∈ l, q.point = p → x.pdef.dims.dltB q.pdef.dims = false

theorem decodeInv_nil : DecodeInv [] [] := by
  intro p
  constructor
  · intro _ q hq
    simp at hq
  · intro x hx
    simp [layoutGet, List.find?] at hx

theorem decodeInv_insert (l : List Platform) (m : List (Point × Platform))
    (plat : Platform) (h : DecodeInv l m) :
    DecodeInv (l ++ [plat]) (layoutInsert m plat) := by
  intro p
  by_cases hp : p = plat.point
  · subst hp
    cases hget : layoutGet m plat.point with
    | none =>
      have hins := layoutGet_insert_none m plat hget
      constructor
      · intro hcontra
        rw [hins] at hcontra
        simp at hcontra
      · intro x hx
        rw [hins] at hx
        obtain rfl : plat = x := by simpa using hx
        refine ⟨rfl, by simp, ?_⟩
        intro q hq hqp
        rcases List.mem_append.mp hq with hq | hq
        · exact absurd hqp ((h plat.point).1 hget q hq)
        · simp only [List.mem_singleton] at hq
          subst hq
          exact Dimensions.dltB_irrefl _
    | some x =>
      obtain ⟨hxp, hxl, hxmax⟩ := (h plat.point).2 x hget
      have hins := layoutGet_insert_some m plat x hget
      constructor
      · intro hcontra
        rw [hins] at hcontra
        simp at hcontra
      · intro y hy
        rw [hins] at hy
        simp only [Option.some.injEq] at hy
        subst hy
        by_cases hlt : x.pdef.dims.dltB plat.pdef.dims = true
        · rw [if_pos hlt]
          refine ⟨rfl, by simp, ?_⟩
          intro q hq hqp
          rcases List.mem_append.mp hq with hq | hq
          · cases hpq : plat.pdef.dims.dltB q.pdef.dims
            · rfl
            · exact absurd (Dimensions.dltB_trans hlt hpq) (by
                rw [hxmax q hq hqp]
                simp)
          · simp only [List.mem_singleton] at hq
            subst hq
            exact Dimensions.dltB_irrefl _
        · rw [if_neg hlt]
          refine ⟨hxp, List.mem_append_left _ hxl, ?_⟩
          intro q hq hqp
          rcases List.mem_append.mp hq with hq | hq
          · exact hxmax q hq hqp
          · simp only [List.mem_singleton] at hq
            subst hq
            simpa using hlt
  · have hne := layoutGet_insert_ne m plat p hp
    constructor
    · intro hnone q hq
      rw [hne] at hnone
      rcases List.mem_append.mp hq with hq | hq
      · exact (h p).1 hnone q hq
      · simp only [List.mem_singleton] at hq
        subst hq
        exact fun hc => hp hc.symm
    · intro x hx
      rw [hne] at hx
      obtain ⟨hxp, hxl, hxmax⟩ := (h p).2 x hx
      refine ⟨hxp, List.mem_append_left _ hxl, ?_⟩
      intro q hq hqp
      rcases List.mem_append.mp hq with hq | hq
      · exact hxmax q hq hqp
      · simp only [List.mem_singleton] at hq
        subst hq
        exact absurd hqp (fun hc => hp hc.symm)

theorem decodeInv_fold (vars : EncodingVars) :
    ∀ (vs : List Var) (m : List (Point × Platform)) (l : List Platform),
      DecodeInv l m →
      DecodeInv (l ++ vs.filterMap (vars.varToPlatform))
        (vs.foldl
          (fun m v =>
            match vars.varToPlatform v with
            | some plat => layoutInsert m plat
            | none => m) m) := by
  intro vs
  induction vs with
  | nil =>
    intro m l h
    simpa using h
  | cons v rest ih =>
    intro m l h
    rw [List.foldl_cons, List.filterMap_cons]
    cases hv : vars.varToPlatform v with
    | none => exact ih m l h
    | some plat =>
      have := ih (layoutInsert m plat) (l ++ [plat]) (decodeInv_insert l m plat h)
      simpa [List.append_assoc] using this

theorem mem_truePlatformsAt (asg : Assignment) (vars : EncodingVars) (p : Point)
    (q : Platform) :
    q ∈ truePlatformsAt asg vars p ↔
      q ∈ (assignmentPosVars asg).filterMap (vars.varToPlatform) ∧ q.point = p := by
  simp only [truePlatformsAt, List.mem_filterMap, Option.bind_eq_some]
  constructor
  · rintro ⟨v, hv, plat, hplat, hif⟩
    split_ifs at hif with hpt
    · simp only [Option.some.injEq] at hif
      subst hif
      exact ⟨⟨v, hv, hplat⟩, hpt⟩
  · rintro ⟨⟨v, hv, hplat⟩, hpt⟩
    exact ⟨v, hv, q, hplat, by rw [if_pos hpt]⟩

/-- C1, counterexample: for the catalog `{3×1, 2×3}` on a 1×1 world of
terrain, the all-true assignment satisfies every emitted clause, the
decoder stores at origin `(0,0)` the rotatable `3×1` platform
(footprint dims `3×1`), yet the footprint dims assigned true at that
origin include `3×2`, which is neither below nor equal to `3×1` — so
the stored dims are not the strict maximum of the group (the group has
none). -/
theorem c1_counterexample :
    cnfSat (List.replicate 8 (some true))
        (encode [⟨⟨3, 1⟩⟩, ⟨⟨2, 3⟩⟩] ⟨[true], ⟨1, 1⟩⟩).2 = true ∧
    layoutGet (PlatformLayout.fromAssignment (List.replicate 8 (some true))
        (encode [⟨⟨3, 1⟩⟩, ⟨⟨2, 3⟩⟩] ⟨[true], ⟨1, 1⟩⟩).1).platforms ⟨0, 0⟩ =
      some ⟨⟨0, 0⟩, ⟨⟨3, 1⟩⟩, false⟩ ∧
    Platform.dims ⟨⟨0, 0⟩, ⟨⟨3, 1⟩⟩, false⟩ = ⟨3, 1⟩ ∧
    (⟨3, 2⟩ : Dimensions) ∈ truePlatformDimsAt (List.replicate 8 (some true))
      (encode [⟨⟨3, 1⟩⟩, ⟨⟨2, 3⟩⟩] ⟨[true], ⟨1, 1⟩⟩).1 ⟨0, 0⟩ ∧
    Dimensions.dleB ⟨3, 2⟩ ⟨3, 1⟩ = false ∧
    Dimensions.deq ⟨3, 2⟩ ⟨3, 1⟩ = false := by
  refine ⟨by decide, by decide, by decide, by decide, by decide, by decide⟩

/-- C1, amended: for every assignment, every origin stored in the
decoded layout holds one of the platforms decoded from the variables
assigned true at that origin, and its `def().dims()` is maximal — not
strictly below any group member's `def().dims()` — under the
`Dimensions` partial order.  (The source compares `def().dims()`, not
footprint dims, and guarantees maximality, not a strict maximum.) -/
theorem c1_decoder_maximal (asg : Assignment) (vars : EncodingVars) (p : Point)
    (plat : Platform)
    (h : layoutGet (PlatformLayout.fromAssignment asg vars).platforms p = some plat) :
    plat.point = p ∧ plat ∈ truePlatformsAt asg vars p ∧
      ∀ q ∈ truePlatformsAt asg vars p,
        plat.pdef.dims.dltB q.pdef.dims = false := by
  have hinv := decodeInv_fold vars (assignmentPosVars asg) [] [] decodeInv_nil
  have hh : (PlatformLayout.fromAssignment asg vars).platforms =
      (assignmentPosVars asg).foldl
        (fun m v =>
          match vars.varToPlatform v with
          | some plat => layoutInsert m plat
          | none => m) [] := rfl
  rw [hh] at h
  obtain ⟨hxp, hxl, hxmax⟩ := (hinv p).2 plat h
  simp only [List.nil_append] at hxl hxmax
  refine ⟨hxp, (mem_truePlatformsAt asg vars p plat).mpr ⟨hxl, hxp⟩, ?_⟩
  intro q hq
  obtain ⟨hql, hqp⟩ := (mem_truePlatformsAt asg vars p q).mp hq
  exact hxmax q hql hqp

/-- Witness for the amended C1 at the concrete counterexample
instance. -/
theorem c1_decoder_maximal_witness :
    (layoutGet (PlatformLayout.fromAssignment (List.replicate 8 (some true))
        (encode [⟨⟨3, 1⟩⟩, ⟨⟨2, 3⟩⟩] ⟨[true], ⟨1, 1⟩⟩).1).platforms ⟨0, 0⟩ =
      some ⟨⟨0, 0⟩, ⟨⟨3, 1⟩⟩, false⟩) ∧
    (Platform.point ⟨⟨0, 0⟩, ⟨⟨3, 1⟩⟩, false⟩ = ⟨0, 0⟩ ∧
      (⟨⟨0, 0⟩, ⟨⟨3, 1⟩⟩, false⟩ : Platform) ∈
        truePlatformsAt (List.replicate 8 (some true))
          (encode [⟨⟨3, 1⟩⟩, ⟨⟨2, 3⟩⟩] ⟨[true], ⟨1, 1⟩⟩).1 ⟨0, 0⟩ ∧
      ∀ q ∈ truePlatformsAt (List.replicate 8 (some true))
          (encode [⟨⟨3, 1⟩⟩, ⟨⟨2, 3⟩⟩] ⟨[true], ⟨1, 1⟩⟩).1 ⟨0, 0⟩,
        (Platform.pdef ⟨⟨0, 0⟩, ⟨⟨3, 1⟩⟩, false⟩).dims.dltB q.pdef.dims = false) :=
  ⟨by decide, c1_decoder_maximal _ _ _ _ (by decide)⟩

/-- C9, counterexample: the same satisfying assignment activates, at
origin `(0,0)`, platforms with incomparable footprint dims (`3×1` and
`2×3`) and no group member above both — yet decoding does not surface
any error: `from_assignment` is total and simply returns a layout. -/
theorem c9_counterexample :
    cnfSat (List.replicate 8 (some true))
        (encode [⟨⟨3, 1⟩⟩, ⟨⟨2, 3⟩⟩] ⟨[true], ⟨1, 1⟩⟩).2 = true ∧
    (⟨3, 1⟩ : Dimensions) ∈ truePlatformDimsAt (List.replicate 8 (some true))
      (encode [⟨⟨3, 1⟩⟩, ⟨⟨2, 3⟩⟩] ⟨[true], ⟨1, 1⟩⟩).1 ⟨0, 0⟩ ∧
    (⟨2, 3⟩ : Dimensions) ∈ truePlatformDimsAt (List.replicate 8 (some true))
      (encode [⟨⟨3, 1⟩⟩, ⟨⟨2, 3⟩⟩] ⟨[true], ⟨1, 1⟩⟩).1 ⟨0, 0⟩ ∧
    Dimensions.pcmp ⟨3, 1⟩ ⟨2, 3⟩ = none ∧
    (∀ d ∈ truePlatformDimsAt (List.replicate 8 (some true))
        (encode [⟨⟨3, 1⟩⟩, ⟨⟨2, 3⟩⟩] ⟨[true], ⟨1, 1⟩⟩).1 ⟨0, 0⟩,
      ¬(Dimensions.dltB ⟨3, 1⟩ d = true ∧ Dimensions.dltB ⟨2, 3⟩ d = true)) ∧
    1 < (truePlatformDimsAt (List.replicate 8 (some true))
        (encode [⟨⟨3, 1⟩⟩, ⟨⟨2, 3⟩⟩] ⟨[true], ⟨1, 1⟩⟩).1 ⟨0, 0⟩).length ∧
    PlatformLayout.fromAssignment (List.replicate 8 (some true))
        (encode [⟨⟨3, 1⟩⟩, ⟨⟨2, 3⟩⟩] ⟨[true], ⟨1, 1⟩⟩).1 =
      ⟨[(⟨0, 0⟩, ⟨⟨0, 0⟩, ⟨⟨3, 1⟩⟩, false⟩)]⟩ := by
  refine ⟨by decide, by decide, by decide, by decide, by decide, by decide, by decide⟩

/-- C9, amended: decoding never surfaces an error.  `from_assignment`
is total: whenever at least one platform variable decodes true at an
origin — in particular when the group violates the unique-maximum
invariant — the returned layout still has an entry at that origin. -/
theorem c9_decode_no_error (asg : Assignment) (vars : EncodingVars) (p : Point)
    (h : truePlatformsAt asg vars p ≠ []) :
    ∃ plat,
      layoutGet (PlatformLayout.fromAssignment asg vars).platforms p = some plat := by
  have hinv := decodeInv_fold vars (assignmentPosVars asg) [] [] decodeInv_nil
  have hh : (PlatformLayout.fromAssignment asg vars).platforms =
      (assignmentPosVars asg).foldl
        (fun m v =>
          match vars.varToPlatform v with
          | some plat => layoutInsert m plat
          | none => m) [] := rfl
  cases hget : layoutGet (PlatformLayout.fromAssignment asg vars).platforms p with
  | some plat => exact ⟨plat, rfl⟩
  | none =>
    exfalso
    obtain ⟨q, hq⟩ := List.exists_mem_of_ne_nil _ h
    obtain ⟨hql, hqp⟩ := (mem_truePlatformsAt asg vars p q).mp hq
    rw [hh] at hget
    have := (hinv p).1 hget q (by simpa using hql)
    exact this hqp

/-- Witness for the amended C9 at the concrete instance. -/
theorem c9_decode_no_error_witness :
    truePlatformsAt (List.replicate 8 (some true))
        (encode [⟨⟨3, 1⟩⟩, ⟨⟨2, 3⟩⟩] ⟨[true], ⟨1, 1⟩⟩).1 ⟨0, 0⟩ ≠ [] ∧
    ∃ plat,
      layoutGet (PlatformLayout.fromAssignment (List.replicate 8 (some true))
        (encode [⟨⟨3, 1⟩⟩, ⟨⟨2, 3⟩⟩] ⟨[true], ⟨1, 1⟩⟩).1).platforms ⟨0, 0⟩ =
        some plat :=
  ⟨by decide, c9_decode_no_error _ _ _ (by decide)⟩

theorem Dimensions.dleB_iff (a b : Dimensions) :
    a.dleB b = true ↔ a.pcmp b = some .lt ∨ a.pcmp b = some .eq := by
  simp [Dimensions.dleB, Bool.or_eq_true]

/-- C6: `Dimensions::partial_cmp` implements the documented order.
Over non-empty values: `a ≤ b` iff both axes are ≤, the comparison is
`None` (incomparable) iff neither direction is componentwise ≤, and
equality (under both `partial_cmp` and the custom `PartialEq`) holds
iff the two pairs are identical.  An empty dimension is ≤ everything
(a minimum), and any two empty dimensions compare equal (and are equal
under the custom `PartialEq`). -/
theorem c6_dimensions_partial_order (a b : Dimensions) :
    (a.empty = false → b.empty = false →
      ((a.dleB b = true ↔ a.width ≤ b.width ∧ a.height ≤ b.height) ∧
       (a.pcmp b = none ↔
         ¬(a.width ≤ b.width ∧ a.height ≤ b.height) ∧
         ¬(b.width ≤ a.width ∧ b.height ≤ a.height)) ∧
       (a.pcmp b = some .eq ↔ a.width = b.width ∧ a.height = b.height) ∧
       (a.deq b = true ↔ a.width = b.width ∧ a.height = b.height))) ∧
    (a.empty = true → a.dleB b = true) ∧
    (a.empty = true → b.empty = true →
      a.pcmp b = some .eq ∧ a.deq b = true) := by
  refine ⟨?_, ?_, ?_⟩
  · intro ha hb
    rw [Dimensions.empty_false_iff] at ha hb
    refine ⟨?_, ?_, ?_, ?_⟩
    · rw [Dimensions.dleB_iff, Dimensions.pcmp_eq_lt_iff, Dimensions.pcmp_eq_eq_iff]
      omega
    · rw [Dimensions.pcmp_eq_none_iff]
      omega
    · rw [Dimensions.pcmp_eq_eq_iff]
      omega
    · rw [Dimensions.deq_iff]
      omega
  · intro ha
    rw [Dimensions.empty_iff] at ha
    rw [Dimensions.dleB_iff, Dimensions.pcmp_eq_lt_iff, Dimensions.pcmp_eq_eq_iff]
    omega
  · intro ha hb
    rw [Dimensions.empty_iff] at ha hb
    rw [Dimensions.pcmp_eq_eq_iff, Dimensions.deq_iff]
    omega

/-- Witness for C6 at concrete dimension pairs. -/
theorem c6_dimensions_partial_order_witness :
    ((⟨1, 2⟩ : Dimensions).empty = false → (⟨2, 3⟩ : Dimensions).empty = false →
      ((Dimensions.dleB ⟨1, 2⟩ ⟨2, 3⟩ = true ↔ 1 ≤ 2 ∧ 2 ≤ 3) ∧
       (Dimensions.pcmp ⟨1, 2⟩ ⟨2, 3⟩ = none ↔
         ¬(1 ≤ 2 ∧ 2 ≤ 3) ∧ ¬(2 ≤ 1 ∧ 3 ≤ 2)) ∧
       (Dimensions.pcmp ⟨1, 2⟩ ⟨2, 3⟩ = some .eq ↔ 1 = 2 ∧ 2 = 3) ∧
       (Dimensions.deq ⟨1, 2⟩ ⟨2, 3⟩ = true ↔ 1 = 2 ∧ 2 = 3))) ∧
    ((⟨1, 2⟩ : Dimensions).empty = true → Dimensions.dleB ⟨1, 2⟩ ⟨2, 3⟩ = true) ∧
    ((⟨1, 2⟩ : Dimensions).empty = true → (⟨2, 3⟩ : Dimensions).empty = true →
      Dimensions.pcmp ⟨1, 2⟩ ⟨2, 3⟩ = some .eq ∧
        Dimensions.deq ⟨1, 2⟩ ⟨2, 3⟩ = true) :=
  c6_dimensions_partial_order ⟨1, 2⟩ ⟨2, 3⟩

/-- C10: the custom `Hash` for `Dimensions` is consistent with the
custom `PartialEq`: equal keys (including the identification of all
empty dimensions) feed identical data to the hasher, so `Dimensions`
is a lawful hash-map key. -/
theorem c10_hash_eq_consistent (a b : Dimensions) (h : a.deq b = true) :
    a.hashData = b.hashData := by
  rw [Dimensions.deq_iff] at h
  rcases h with ⟨ha, hb⟩ | ⟨hw, hh⟩
  · rw [Dimensions.hashData, Dimensions.hashData,
      if_pos ((Dimensions.empty_iff a).mpr ha),
      if_pos ((Dimensions.empty_iff b).mpr hb)]
  · have he : a.empty = b.empty := by
      simp only [Dimensions.empty, hw, hh]
    cases h2 : a.empty
    · rw [Dimensions.hashData, Dimensions.hashData, if_neg (by simp [h2]),
        if_neg (by simp [← he, h2]), hw, hh]
    · rw [Dimensions.hashData, Dimensions.hashData, if_pos h2, if_pos (he ▸ h2)]

/-- Witness for C10: two distinct empty dimensions are `deq`-equal and
hash identically. -/
theorem c10_hash_eq_consistent_witness :
    Dimensions.deq ⟨0, 5⟩ ⟨3, 0⟩ = true ∧
      Dimensions.hashData ⟨0, 5⟩ = Dimensions.hashData ⟨3, 0⟩ :=
  ⟨by decide, c10_hash_eq_consistent ⟨0, 5⟩ ⟨3, 0⟩ (by decide)⟩

theorem mem_maximalFrom (S : List EncodingNode) (n : EncodingNode) :
    n ∈ maximalFrom S ↔ n ∈ S ∧ ∀ m ∈ S, closureEdge m n = false := by
  simp only [maximalFrom, List.mem_filter, Bool.not_eq_true', List.any_eq_false,
    Bool.not_eq_true]

/-- C2, counterexample: in the DAG for the catalog `{1×1, 3×3}` the
slice `S = {1×1, 3×3}` has `3×3` as its only member without a strict
successor (under the closure, edges smaller → larger), yet
`maximal_from(S)` removes `3×3` and returns `{1×1}` — it filters out
nodes with a strict *predecessor*, i.e. it computes the minimal
elements, not the maximal ones. -/
theorem c2_counterexample :
    maximalFrom [EncodingNode.platform ⟨1, 1⟩, EncodingNode.platform ⟨3, 3⟩] =
      [EncodingNode.platform ⟨1, 1⟩] ∧
    closureEdge (EncodingNode.platform ⟨1, 1⟩) (EncodingNode.platform ⟨3, 3⟩) = true ∧
    (∀ m ∈ [EncodingNode.platform ⟨1, 1⟩, EncodingNode.platform ⟨3, 3⟩],
      closureEdge (EncodingNode.platform ⟨3, 3⟩) m = false) ∧
    EncodingNode.platform ⟨3, 3⟩ ∉
      maximalFrom [EncodingNode.platform ⟨1, 1⟩, EncodingNode.platform ⟨3, 3⟩] := by
  refine ⟨by decide, by decide, by decide, by decide⟩

/-- C2, amended: `maximal_from(S)` returns exactly the members of `S`
with no strict predecessor within `S` under the closure `C` (the
minimal elements with respect to the smaller→larger edge direction);
consequently the soundness disjunction for an incomparable pair ranges
over exactly the minimal elements of their common platform
successors. -/
theorem c2_maximal_from_minimal :
    (∀ (S : List EncodingNode) (n : EncodingNode),
      n ∈ maximalFrom S ↔ n ∈ S ∧ ∀ m ∈ S, closureEdge m n = false) ∧
    (∀ (nodes : List EncodingNode) (da db : Dimensions),
      soundDisjuncts nodes da db =
        (commonPlatformSuccessors nodes (.platform da) (.platform db)).filter
          (fun dc =>
            decide (∀ m ∈ commonPlatformSuccessors nodes (.platform da) (.platform db),
              closureEdge (.platform m) (.platform dc) = false))) := by
  refine ⟨mem_maximalFrom, ?_⟩
  intro nodes da db
  rw [soundDisjuncts]
  apply List.filter_congr
  intro dc hdc
  rw [decide_eq_decide]
  rw [mem_maximalFrom]
  constructor
  · rintro ⟨_, hmax⟩ m hm
    exact hmax (.platform m) (List.mem_map_of_mem _ hm)
  · intro hmax
    refine ⟨List.mem_map_of_mem _ hdc, ?_⟩
    intro m hm
    obtain ⟨dm, hdm, rfl⟩ := List.mem_map.mp hm
    exact hmax dm hdm

theorem new_grid_wf (defs : List PlatformDef) (world : Grid Bool)
    (hwf : world.Wf) : (EncodingVars.new defs world).grid.Wf := by
  constructor
  · show (allocTiles ((dimsPlatformMap defs).map (·.1)) world
      world.dims.iterWithin 0).length = world.dims.width * world.dims.height
    rw [allocTiles_length, Dimensions.iterWithin_length _ hwf.2]
  · exact hwf.2

theorem tileAt_none_of_not_contains (defs : List PlatformDef) (world : Grid Bool)
    (q : Point) (hq : world.dims.contains q = false) :
    (EncodingVars.new defs world).tileAt q = none := by
  exact Grid.get_eq_none_of_not_contains _ q hq

theorem mkTile_terrain_true (dk : List Dimensions) (c : Var) :
    (mkTile dk true c).terrain =
      some (List.range' (c + dk.length) TERRAIN_SUPPORT_DISTANCE) := rfl

theorem mkTile_terrain_false (dk : List Dimensions) (c : Var) :
    (mkTile dk false c).terrain = none := rfl

theorem terrainVarsAt_spec (defs : List PlatformDef) (world : Grid Bool)
    (hwf : world.Wf) (q : Point) :
    (terrainVarsAt (EncodingVars.new defs world) q = none ∧
      ¬(world.dims.contains q = true ∧ (world.get q).getD false = true)) ∨
    (∃ tv, terrainVarsAt (EncodingVars.new defs world) q = some tv ∧
      tv.length = TERRAIN_SUPPORT_DISTANCE ∧
      world.dims.contains q = true ∧ (world.get q).getD false = true) := by
  by_cases hc : world.dims.contains q = true
  · rw [terrainVarsAt, new_tileAt defs world hwf q hc]
    by_cases ht : (world.get q).getD false = true
    · right
      rw [Option.some_bind, ht, mkTile_terrain_true]
      exact ⟨_, rfl, by simp, hc, rfl⟩
    · left
      simp only [Bool.not_eq_true] at ht
      rw [Option.some_bind, ht, mkTile_terrain_false]
      exact ⟨rfl, by simp [ht]⟩
  · left
    rw [terrainVarsAt, tileAt_none_of_not_contains defs world q (by simpa using hc)]
    exact ⟨rfl, by tauto⟩

theorem tileAt_isSome_iff (defs : List PlatformDef) (world : Grid Bool)
    (hwf : world.Wf) (q : Point) :
    ((EncodingVars.new defs world).tileAt q).isSome = true ↔
      world.dims.contains q = true :=
  Grid.get_isSome_iff _ (new_grid_wf defs world hwf) q

/-- C3: for every catalog and well-formed world, every terrain tile
`p` is traversed exactly once and receives exactly one binding clause
`T(p, K-1) → ⋁ P(p - off, d)`, whose disjuncts are exactly the
positive literals of `P(p - off, d)` over the reduced point→platform
edges `(off, d)` with `p - off` inside world bounds; an empty
disjunction leaves the unit clause `¬T(p, K-1)`. -/
theorem c3_binding_clause (defs : List PlatformDef) (world : Grid Bool)
    (hwf : world.Wf) (p : Point) (hp : world.dims.contains p = true)
    (ht : (world.get p).getD false = true) :
    (world.dims.iterWithin.count p = 1) ∧
    ∃ disj,
      bindingClauses (EncodingVars.new defs world)
          (dagNodes ((EncodingVars.new defs world).dimMap.map (·.1))) p =
        [negLit (terrainVar (EncodingVars.new defs world) p
          (TERRAIN_SUPPORT_DISTANCE - 1)) :: disj] ∧
      (∀ l, l ∈ disj ↔
        ∃ od ∈ iterPointPlatformEdgesReduced
            (dagNodes ((EncodingVars.new defs world).dimMap.map (·.1))),
          world.dims.contains (p.sub od.1) = true ∧
          l = posLit (dimsVarAt (EncodingVars.new defs world) (p.sub od.1) od.2)) ∧
      (disj = [] →
        bindingClauses (EncodingVars.new defs world)
            (dagNodes ((EncodingVars.new defs world).dimMap.map (·.1))) p =
          [[negLit (terrainVar (EncodingVars.new defs world) p
            (TERRAIN_SUPPORT_DISTANCE - 1))]]) := by
  have hw : 0 < world.dims.width := by
    have := contains_toNat world.dims p hp
    omega
  refine ⟨?_, ?_⟩
  · rw [List.count_eq_one_of_mem (Dimensions.iterWithin_nodup world.dims)
      ((Dimensions.mem_iterWithin world.dims p hw).mpr hp)]
  · rcases terrainVarsAt_spec defs world hwf p with ⟨_, hno⟩ | ⟨tv, htv, _, _, _⟩
    · exact absurd ⟨hp, ht⟩ hno
    · have hterr : terrainVar (EncodingVars.new defs world) p
          (TERRAIN_SUPPORT_DISTANCE - 1) = tv.getD (TERRAIN_SUPPORT_DISTANCE - 1) 0 := by
        rw [terrainVar, htv]
        rfl
      refine ⟨(iterPointPlatformEdgesReduced
          (dagNodes ((EncodingVars.new defs world).dimMap.map (·.1)))).filterMap
            (fun od => ((EncodingVars.new defs world).tileAt (p.sub od.1)).map
              (fun t => posLit ((t.forDims od.2).getD 0))), ?_, ?_, ?_⟩
      · rw [bindingClauses, htv, hterr]
      · intro l
        rw [List.mem_filterMap]
        constructor
        · rintro ⟨od, hod, hmap⟩
          rw [Option.map_eq_some'] at hmap
          obtain ⟨t, hts, rfl⟩ := hmap
          have hcon : world.dims.contains (p.sub od.1) = true := by
            rw [← tileAt_isSome_iff defs world hwf, hts]
            rfl
          refine ⟨od, hod, hcon, ?_⟩
          rw [dimsVarAt, hts]
          rfl
        · rintro ⟨od, hod, hcon, rfl⟩
          refine ⟨od, hod, ?_⟩
          obtain ⟨t, hts⟩ := Option.isSome_iff_exists.mp
            ((tileAt_isSome_iff defs world hwf _).mpr hcon)
          rw [hts]
          simp only [Option.map_some', Option.some.injEq]
          rw [dimsVarAt, hts]
          rfl
      · intro hnil
        rw [bindingClauses, htv, hnil, hterr]

/-- C4: for every catalog and well-formed world, every terrain tile
`p` is traversed exactly once and receives the unit clause `T(p, 0)`
plus, for each layer `i < K-1`, the diffusion clause
`T(p,i) → ⋁ T(q, i+1)` whose disjuncts range over exactly `p` itself
together with those four-neighbors of `p` that are in-bounds terrain
tiles. -/
theorem c4_terrain_diffusion (defs : List PlatformDef) (world : Grid Bool)
    (hwf : world.Wf) (p : Point) (hp : world.dims.contains p = true)
    (ht : (world.get p).getD false = true) :
    (world.dims.iterWithin.count p = 1) ∧
    ∃ body : Nat → List Lit,
      diffusionClauses (EncodingVars.new defs world) p =
        ((List.range (TERRAIN_SUPPORT_DISTANCE - 1)).map
          (fun i => negLit (terrainVar (EncodingVars.new defs world) p i) :: body i)) ++
        [[posLit (terrainVar (EncodingVars.new defs world) p 0)]] ∧
      ∀ i l, l ∈ body i ↔
        ∃ q, (q = p ∨ (q ∈ p.neighbors ∧ world.dims.contains q = true ∧
            (world.get q).getD false = true)) ∧
          l = posLit (terrainVar (EncodingVars.new defs world) q (i + 1)) := by
  have hw : 0 < world.dims.width := by
    have := contains_toNat world.dims p hp
    omega
  refine ⟨?_, ?_⟩
  · rw [List.count_eq_one_of_mem (Dimensions.iterWithin_nodup world.dims)
      ((Dimensions.mem_iterWithin world.dims p hw).mpr hp)]
  · rcases terrainVarsAt_spec defs world hwf p with ⟨_, hno⟩ | ⟨tv, htv, _, _, _⟩
    · exact absurd ⟨hp, ht⟩ hno
    · refine ⟨fun i =>
        ((p.neighbors.filterMap
            (fun n => terrainVarsAt (EncodingVars.new defs world) n)) ++ [tv]).map
          (fun l => posLit (l.getD (i + 1) 0)), ?_, ?_⟩
      · have hD : diffusionClauses (EncodingVars.new defs world) p =
            ((List.range (TERRAIN_SUPPORT_DISTANCE - 1)).map
              (fun i => negLit (tv.getD i 0) ::
                ((p.neighbors.filterMap
                    (fun n => terrainVarsAt (EncodingVars.new defs world) n)) ++ [tv]).map
                  (fun l => posLit (l.getD (i + 1) 0)))) ++
            [[posLit (tv.getD 0 0)]] := by
          rw [diffusionClauses, htv]
        rw [hD]
        congr 1
        · apply List.map_congr_left
          intro i _
          rw [terrainVar, htv]
          rfl
        · rw [terrainVar, htv]
          rfl
      · intro i l
        rw [List.mem_map]
        constructor
        · rintro ⟨tvq, htvq, rfl⟩
          rcases List.mem_append.mp htvq with hmem | hmem
          · obtain ⟨q, hq, hqs⟩ := List.mem_filterMap.mp hmem
            rcases terrainVarsAt_spec defs world hwf q with ⟨hnone, _⟩ | ⟨tvq2, hsome, _, hc, hterr2⟩
            · rw [hnone] at hqs
              simp at hqs
            · rw [hsome] at hqs
              obtain rfl : tvq2 = tvq := by simpa using hqs
              refine ⟨q, Or.inr ⟨hq, hc, hterr2⟩, ?_⟩
              rw [terrainVar, hsome]
              rfl
          · simp only [List.mem_singleton] at hmem
            subst hmem
            refine ⟨p, Or.inl rfl, ?_⟩
            rw [terrainVar, htv]
            rfl
        · rintro ⟨q, hq | ⟨hq, hc, hterr2⟩, rfl⟩
          · subst hq
            refine ⟨tv, List.mem_append_right _ (by simp), ?_⟩
            rw [terrainVar, htv]
            rfl
          · rcases terrainVarsAt_spec defs world hwf q with ⟨_, hno2⟩ | ⟨tvq, hsome, _, _, _⟩
            · exact absurd ⟨hc, hterr2⟩ hno2
            · refine ⟨tvq, List.mem_append_left _
                (List.mem_filterMap.mpr ⟨q, hq, hsome⟩), ?_⟩
              rw [terrainVar, hsome]
              rfl

/-- Witness for C3 at a concrete catalog, world and terrain tile. -/
theorem c3_binding_clause_witness :
    Grid.Wf (⟨[true], ⟨1, 1⟩⟩ : Grid Bool) ∧
    (⟨[true], ⟨1, 1⟩⟩ : Grid Bool).dims.contains ⟨0, 0⟩ = true ∧
    ((⟨[true], ⟨1, 1⟩⟩ : Grid Bool).get ⟨0, 0⟩).getD false = true ∧
    (((⟨[true], ⟨1, 1⟩⟩ : Grid Bool).dims.iterWithin.count ⟨0, 0⟩ = 1) ∧
      ∃ disj,
        bindingClauses (EncodingVars.new [⟨⟨3, 1⟩⟩, ⟨⟨2, 3⟩⟩] ⟨[true], ⟨1, 1⟩⟩)
            (dagNodes ((EncodingVars.new [⟨⟨3, 1⟩⟩, ⟨⟨2, 3⟩⟩]
              ⟨[true], ⟨1, 1⟩⟩).dimMap.map (·.1))) ⟨0, 0⟩ =
          [negLit (terrainVar (EncodingVars.new [⟨⟨3, 1⟩⟩, ⟨⟨2, 3⟩⟩] ⟨[true], ⟨1, 1⟩⟩)
            ⟨0, 0⟩ (TERRAIN_SUPPORT_DISTANCE - 1)) :: disj] ∧
        (∀ l, l ∈ disj ↔
          ∃ od ∈ iterPointPlatformEdgesReduced
              (dagNodes ((EncodingVars.new [⟨⟨3, 1⟩⟩, ⟨⟨2, 3⟩⟩]
                ⟨[true], ⟨1, 1⟩⟩).dimMap.map (·.1))),
            (⟨[true], ⟨1, 1⟩⟩ : Grid Bool).dims.contains (Point.sub ⟨0, 0⟩ od.1) = true ∧
            l = posLit (dimsVarAt (EncodingVars.new [⟨⟨3, 1⟩⟩, ⟨⟨2, 3⟩⟩]
              ⟨[true], ⟨1, 1⟩⟩) (Point.sub ⟨0, 0⟩ od.1) od.2)) ∧
        (disj = [] →
          bindingClauses (EncodingVars.new [⟨⟨3, 1⟩⟩, ⟨⟨2, 3⟩⟩] ⟨[true], ⟨1, 1⟩⟩)
              (dagNodes ((EncodingVars.new [⟨⟨3, 1⟩⟩, ⟨⟨2, 3⟩⟩]
                ⟨[true], ⟨1, 1⟩⟩).dimMap.map (·.1))) ⟨0, 0⟩ =
            [[negLit (terrainVar (EncodingVars.new [⟨⟨3, 1⟩⟩, ⟨⟨2, 3⟩⟩]
              ⟨[true], ⟨1, 1⟩⟩) ⟨0, 0⟩ (TERRAIN_SUPPORT_DISTANCE - 1))]])) :=
  ⟨by constructor <;> simp [Grid.Wf], by decide, by decide,
    c3_binding_clause [⟨⟨3, 1⟩⟩, ⟨⟨2, 3⟩⟩] ⟨[true], ⟨1, 1⟩⟩
      (by constructor <;> simp [Grid.Wf]) ⟨0, 0⟩ (by decide) (by decide)⟩

/-- Witness for C4 at a concrete catalog, world and terrain tile. -/
theorem c4_terrain_diffusion_witness :
    Grid.Wf (⟨[true], ⟨1, 1⟩⟩ : Grid Bool) ∧
    (⟨[true], ⟨1, 1⟩⟩ : Grid Bool).dims.contains ⟨0, 0⟩ = true ∧
    ((⟨[true], ⟨1, 1⟩⟩ : Grid Bool).get ⟨0, 0⟩).getD false = true ∧
    (((⟨[true], ⟨1, 1⟩⟩ : Grid Bool).dims.iterWithin.count ⟨0, 0⟩ = 1) ∧
      ∃ body : Nat → List Lit,
        diffusionClauses (EncodingVars.new [⟨⟨3, 1⟩⟩, ⟨⟨2, 3⟩⟩] ⟨[true], ⟨1, 1⟩⟩) ⟨0, 0⟩ =
          ((List.range (TERRAIN_SUPPORT_DISTANCE - 1)).map
            (fun i => negLit (terrainVar (EncodingVars.new [⟨⟨3, 1⟩⟩, ⟨⟨2, 3⟩⟩]
              ⟨[true], ⟨1, 1⟩⟩) ⟨0, 0⟩ i) :: body i)) ++
          [[posLit (terrainVar (EncodingVars.new [⟨⟨3, 1⟩⟩, ⟨⟨2, 3⟩⟩]
            ⟨[true], ⟨1, 1⟩⟩) ⟨0, 0⟩ 0)]] ∧
        ∀ i l, l ∈ body i ↔
          ∃ q, (q = ⟨0, 0⟩ ∨ (q ∈ Point.neighbors ⟨0, 0⟩ ∧
              (⟨[true], ⟨1, 1⟩⟩ : Grid Bool).dims.contains q = true ∧
              ((⟨[true], ⟨1, 1⟩⟩ : Grid Bool).get q).getD false = true)) ∧
            l = posLit (terrainVar (EncodingVars.new [⟨⟨3, 1⟩⟩, ⟨⟨2, 3⟩⟩]
              ⟨[true], ⟨1, 1⟩⟩) q (i + 1))) :=
  ⟨by constructor <;> simp [Grid.Wf], by decide, by decide,
    c4_terrain_diffusion [⟨⟨3, 1⟩⟩, ⟨⟨2, 3⟩⟩] ⟨[true], ⟨1, 1⟩⟩
      (by constructor <;> simp [Grid.Wf]) ⟨0, 0⟩ (by decide) (by decide)⟩

theorem zip_find?_deq (d : Dimensions) :
    ∀ (dk : List Dimensions) (c : Var), (∃ k ∈ dk, k.deq d = true) →
      ∃ k v,
        (dk.zip (List.range' c dk.length)).find? (fun kv => kv.1.deq d) =
          some (k, v) ∧
        k.deq d = true ∧ (k, v) ∈ dk.zip (List.range' c dk.length) := by
  intro dk
  induction dk with
  | nil =>
    rintro c ⟨k, hk, _⟩
    simp at hk
  | cons k0 ks ih =>
    rintro c ⟨k, hk, hdeq⟩
    show ∃ k v, ((k0, c) :: ks.zip (List.range' (c + 1) ks.length)).find?
        (fun kv => kv.1.deq d) = some (k, v) ∧ _
    cases h0 : k0.deq d
    · rcases List.mem_cons.mp hk with rfl | hk'
      · rw [h0] at hdeq
        exact absurd hdeq (by simp)
      · obtain ⟨k', v', hfind, hdeq', hmem⟩ := ih (c + 1) ⟨k, hk', hdeq⟩
        refine ⟨k', v', ?_, hdeq', List.mem_cons_of_mem _ hmem⟩
        rw [List.find?_cons_of_neg _ (by simp [h0]), hfind]
    · refine ⟨k0, c, ?_, h0, List.mem_cons_self _ _⟩
      rw [List.find?_cons_of_pos _ (by simp [h0])]

theorem varMapGet_of_mem (m : List (Var × EncodedItem)) (v : Var)
    (item : EncodedItem) (hnd : (m.map (·.1)).Nodup) (hmem : (v, item) ∈ m) :
    varMapGet m v = some item := by
  induction m with
  | nil => simp at hmem
  | cons kv rest ih =>
    obtain ⟨k', it'⟩ := kv
    simp only [List.map_cons, List.nodup_cons] at hnd
    rcases List.mem_cons.mp hmem with heq | hmem'
    · obtain ⟨rfl, rfl⟩ := Prod.mk.injEq .. ▸ heq
      rw [varMapGet, List.find?_cons_of_pos _ (by simp)]
      rfl
    · have hne : k' ≠ v := by
        intro hc
        subst hc
        exact hnd.1 (List.mem_map_of_mem (·.1) hmem')
      rw [varMapGet, List.find?_cons_of_neg _ (by simp [hne])]
      exact ih hnd.2 hmem'

theorem indexToPoint_index {α : Type} (g : Grid α) (p : Point)
    (h : g.dims.contains p = true) :
    g.indexToPoint (p.x.toNat + p.y.toNat * g.dims.width) = p := by
  obtain ⟨hx, hy, hcx, hcy⟩ := contains_toNat g.dims p h
  rw [Grid.indexToPoint]
  have h1 : (p.x.toNat + p.y.toNat * g.dims.width) % g.dims.width = p.x.toNat := by
    rw [Nat.add_mul_mod_self_right, Nat.mod_eq_of_lt hx]
  have h2 : (p.x.toNat + p.y.toNat * g.dims.width) / g.dims.width = p.y.toNat := by
    rw [Nat.add_mul_div_right _ _ (by omega : 0 < g.dims.width),
      Nat.div_eq_of_lt hx]
    omega
  rw [h1, h2]
  rcases p with ⟨px, py⟩
  simp only [Point.mk.injEq]
  exact ⟨hcx, hcy⟩

theorem enumerate_mem_of_get {α : Type} (g : Grid α) (hg : g.Wf) (p : Point)
    (t : α) (h : g.get p = some t) : (p, t) ∈ g.enumerate := by
  have hcon : g.dims.contains p = true := by
    cases hc : g.dims.contains p
    · rw [Grid.get_eq_none_of_not_contains g p hc] at h
      simp at h
    · rfl
  rw [Grid.get_eq_of_contains g p hcon] at h
  have hidx := List.get?_mem (List.enum_get? g.data (p.x.toNat + p.y.toNat * g.dims.width) ▸ ?_ :
    g.data.enum.get? (p.x.toNat + p.y.toNat * g.dims.width) =
      some (p.x.toNat + p.y.toNat * g.dims.width, t))
  · have : (p, t) = (g.indexToPoint (p.x.toNat + p.y.toNat * g.dims.width),
        (p.x.toNat + p.y.toNat * g.dims.width, t).2) := by
      rw [indexToPoint_index g p hcon]
    rw [this]
    exact List.mem_map_of_mem _ hidx
  · rw [h]
    rfl

/-- Distinctness of `dims_platform_map` keys under the custom
equality (the hash-map key invariant). -/
def DimMapKeysND (m : DimMap) : Prop :=
  m.Pairwise (fun a b => a.1.deq b.1 = false)

/-- Content invariant of `dims_platform_map`: every def set is
non-empty and each member's native dims equal the key directly or
flipped. -/
def DimMapInv (m : DimMap) : Prop :=
  ∀ ks ∈ m, ks.2 ≠ [] ∧ ∀ d0 ∈ ks.2,
    d0.dims.deq ks.1 = true ∨ d0.dims.flipped.deq ks.1 = true

theorem dimMapInsert_keys (m : DimMap) (k : Dimensions) (p : PlatformDef) :
    (dimMapInsert m k p).map (·.1) = m.map (·.1) ∨
    (dimMapInsert m k p).map (·.1) = m.map (·.1) ++ [k] := by
  induction m with
  | nil => right; rfl
  | cons ks rest ih =>
    obtain ⟨k', s⟩ := ks
    rw [dimMapInsert]
    by_cases h : k'.deq k = true
    · rw [if_pos h]
      left
      rfl
    · rw [if_neg h]
      rcases ih with ih | ih
      · left
        simp [ih]
      · right
        simp [ih]

theorem dimMapInsert_keysND (m : DimMap) (k : Dimensions) (p : PlatformDef)
    (h : DimMapKeysND m) : DimMapKeysND (dimMapInsert m k p) := by
  induction m with
  | nil =>
    refine List.pairwise_cons.mpr ⟨?_, List.Pairwise.nil⟩
    intro b hb
    simp at hb
  | cons ks rest ih =>
    obtain ⟨k', s⟩ := ks
    obtain ⟨hhead, htail⟩ := List.pairwise_cons.mp h
    rw [dimMapInsert]
    by_cases hd : k'.deq k = true
    · rw [if_pos hd]
      exact List.pairwise_cons.mpr ⟨hhead, htail⟩
    · rw [if_neg hd]
      refine List.pairwise_cons.mpr ⟨?_, ih htail⟩
      intro b hb
      have hbk : b.1 ∈ (dimMapInsert rest k p).map (·.1) :=
        List.mem_map_of_mem (·.1) hb
      rcases dimMapInsert_keys rest k p with hk | hk
      · rw [hk] at hbk
        obtain ⟨b', hb', hb'k⟩ := List.mem_map.mp hbk
        have := hhead b' hb'
        rw [hb'k] at this
        exact this
      · rw [hk] at hbk
        rcases List.mem_append.mp hbk with hbk | hbk
        · obtain ⟨b', hb', hb'k⟩ := List.mem_map.mp hbk
          have := hhead b' hb'
          rw [hb'k] at this
          exact this
        · simp only [List.mem_singleton] at hbk
          rw [hbk]
          simpa using hd

theorem dimMapInsert_inv (m : DimMap) (k : Dimensions) (p : PlatformDef)
    (hk : p.dims.deq k = true ∨ p.dims.flipped.deq k = true)
    (h : DimMapInv m) : DimMapInv (dimMapInsert m k p) := by
  induction m with
  | nil =>
    intro ks hks
    simp only [dimMapInsert, List.mem_singleton] at hks
    subst hks
    refine ⟨by simp, ?_⟩
    intro d0 hd0
    simp only [List.mem_singleton] at hd0
    subst hd0
    exact hk
  | cons ks0 rest ih =>
    obtain ⟨k', s⟩ := ks0
    rw [dimMapInsert]
    by_cases hd : k'.deq k = true
    · rw [if_pos hd]
      intro ks hks
      rcases List.mem_cons.mp hks with heq | hmem
      · subst heq
        obtain ⟨hne, hall⟩ := h (k', s) (by simp)
        constructor
        · split_ifs with hps
          · exact hne
          · simp
        · intro d0 hd0
          have hmem0 : d0 ∈ s ∨ d0 = p := by
            split_ifs at hd0 with hps
            · exact Or.inl hd0
            · rcases List.mem_append.mp hd0 with h' | h'
              · exact Or.inl h'
              · simp only [List.mem_singleton] at h'
                exact Or.inr h'
          rcases hmem0 with h' | h'
          · exact hall d0 h'
          · subst h'
            rcases hk with hk | hk
            · exact Or.inl (Dimensions.deq_trans hk (Dimensions.deq_symm hd))
            · exact Or.inr (Dimensions.deq_trans hk (Dimensions.deq_symm hd))
      · exact h ks (by simp [hmem])
    · rw [if_neg hd]
      intro ks hks
      rcases List.mem_cons.mp hks with heq | hmem
      · subst heq
        exact h (k', s) (by simp)
      · exact ih (fun ks' hks' => h ks' (by simp [hks'])) ks hmem

theorem dimMapInsert_key_exists (m : DimMap) (k : Dimensions) (p : PlatformDef) :
    ∃ ks ∈ dimMapInsert m k p, ks.1.deq k = true := by
  induction m with
  | nil => exact ⟨(k, [p]), List.mem_singleton.mpr rfl, Dimensions.deq_refl k⟩
  | cons ks0 rest ih =>
    obtain ⟨k', s⟩ := ks0
    rw [dimMapInsert]
    by_cases hd : k'.deq k = true
    · rw [if_pos hd]
      exact ⟨(k', if p ∈ s then s else s ++ [p]), by simp, hd⟩
    · rw [if_neg hd]
      obtain ⟨ks, hks, hdeq⟩ := ih
      exact ⟨ks, by simp [hks], hdeq⟩

theorem dimMapInsert_key_persist (m : DimMap) (k k0 : Dimensions)
    (p : PlatformDef) (h : ∃ ks ∈ m, ks.1.deq k0 = true) :
    ∃ ks ∈ dimMapInsert m k p, ks.1.deq k0 = true := by
  induction m with
  | nil =>
    obtain ⟨ks, hks, _⟩ := h
    simp at hks
  | cons ks0 rest ih =>
    obtain ⟨k', s⟩ := ks0
    rw [dimMapInsert]
    obtain ⟨ks, hks, hdeq⟩ := h
    by_cases hd : k'.deq k = true
    · rw [if_pos hd]
      rcases List.mem_cons.mp hks with heq | hmem
      · subst heq
        exact ⟨(k', if p ∈ s then s else s ++ [p]), by simp, hdeq⟩
      · exact ⟨ks, by simp [hmem], hdeq⟩
    · rw [if_neg hd]
      rcases List.mem_cons.mp hks with heq | hmem
      · subst heq
        exact ⟨(k', s), by simp, hdeq⟩
      · obtain ⟨ks', hks', hdeq'⟩ := ih ⟨ks, hmem, hdeq⟩
        exact ⟨ks', by simp [hks'], hdeq'⟩

theorem foldl_dimMap_keysND :
    ∀ (defs : List PlatformDef) (m : DimMap), DimMapKeysND m →
      DimMapKeysND (defs.foldl
        (fun m p => dimMapInsert (dimMapInsert m p.dims p) p.dims.flipped p) m) := by
  intro defs
  induction defs with
  | nil => intro m hm; exact hm
  | cons pd rest ih =>
    intro m hm
    rw [List.foldl_cons]
    exact ih _ (dimMapInsert_keysND _ _ _ (dimMapInsert_keysND _ _ _ hm))

theorem dimsPlatformMap_keysND (defs : List PlatformDef) :
    DimMapKeysND (dimsPlatformMap defs) :=
  foldl_dimMap_keysND defs [] List.Pairwise.nil

theorem foldl_dimMap_inv :
    ∀ (defs : List PlatformDef) (m : DimMap), DimMapInv m →
      DimMapInv (defs.foldl
        (fun m p => dimMapInsert (dimMapInsert m p.dims p) p.dims.flipped p) m) := by
  intro defs
  induction defs with
  | nil => intro m hm; exact hm
  | cons pd rest ih =>
    intro m hm
    rw [List.foldl_cons]
    refine ih _ (dimMapInsert_inv _ _ _ (Or.inr (Dimensions.deq_refl _))
      (dimMapInsert_inv _ _ _ (Or.inl (Dimensions.deq_refl _)) hm))

theorem dimsPlatformMap_inv (defs : List PlatformDef) :
    DimMapInv (dimsPlatformMap defs) :=
  foldl_dimMap_inv defs [] (fun ks hks => by simp at hks)

theorem foldl_dimMap_key_persist :
    ∀ (defs : List PlatformDef) (m : DimMap) (k0 : Dimensions),
      (∃ ks ∈ m, ks.1.deq k0 = true) →
      ∃ ks ∈ defs.foldl
        (fun m p => dimMapInsert (dimMapInsert m p.dims p) p.dims.flipped p) m,
        ks.1.deq k0 = true := by
  intro defs
  induction defs with
  | nil => intro m k0 h; exact h
  | cons pd rest ih =>
    intro m k0 h
    rw [List.foldl_cons]
    exact ih _ k0 (dimMapInsert_key_persist _ _ _ _
      (dimMapInsert_key_persist _ _ _ _ h))

theorem dimsPlatformMap_key_of_def :
    ∀ (defs : List PlatformDef) (m : DimMap) (pd : PlatformDef), pd ∈ defs →
      (∃ ks ∈ defs.foldl
          (fun m p => dimMapInsert (dimMapInsert m p.dims p) p.dims.flipped p) m,
        ks.1.deq pd.dims = true) ∧
      (∃ ks ∈ defs.foldl
          (fun m p => dimMapInsert (dimMapInsert m p.dims p) p.dims.flipped p) m,
        ks.1.deq pd.dims.flipped = true) := by
  intro defs
  induction defs with
  | nil =>
    intro m pd hpd
    simp at hpd
  | cons pd0 rest ih =>
    intro m pd hpd
    rw [List.foldl_cons]
    rcases List.mem_cons.mp hpd with rfl | hmem
    · constructor
      · exact foldl_dimMap_key_persist rest _ _
          (dimMapInsert_key_persist _ _ _ _ (dimMapInsert_key_exists m _ _))
      · exact foldl_dimMap_key_persist rest _ _
          (dimMapInsert_key_exists _ _ _)
    · exact ih _ pd hmem

theorem dimMapGet_of_mem (m : DimMap) (k : Dimensions) (s : List PlatformDef)
    (hnd : DimMapKeysND m) (hmem : (k, s) ∈ m) : dimMapGet m k = some s := by
  induction m with
  | nil => simp at hmem
  | cons ks0 rest ih =>
    obtain ⟨k', s'⟩ := ks0
    obtain ⟨hhead, htail⟩ := List.pairwise_cons.mp hnd
    rcases List.mem_cons.mp hmem with heq | hmem'
    · obtain ⟨rfl, rfl⟩ := Prod.mk.injEq .. ▸ heq
      rw [dimMapGet, List.find?_cons_of_pos _ (by simp [Dimensions.deq_refl])]
      rfl
    · have hne := hhead (k, s) hmem'
      rw [dimMapGet, List.find?_cons_of_neg _ (by simp [hne])]
      exact ih htail hmem'

theorem Dimensions.deq_congr (x k d : Dimensions) (h : k.deq d = true) :
    x.deq k = x.deq d := by
  cases hx : x.deq k
  · cases hd : x.deq d
    · rfl
    · exact absurd (Dimensions.deq_trans hd (Dimensions.deq_symm h))
        (by simp [hx])
  · rw [Dimensions.deq_trans hx h]

/-- C7: round-trip of the variable index.  For every in-bounds origin
`p` and every effective footprint dimension `d` of the catalog,
`var_to_platform(for_dims_at(p, d))` yields a `Platform` whose origin
is `p`, whose effective dims equal `d` (under the `Dimensions`
equality), and whose `rotated` flag is set iff `d` differs from the
chosen def's native dims. -/
theorem c7_round_trip (defs : List PlatformDef) (world : Grid Bool)
    (hwf : world.Wf) (p : Point) (d : Dimensions)
    (hp : world.dims.contains p = true)
    (hd : ∃ pd ∈ defs, pd.dims.deq d = true ∨ pd.dims.flipped.deq d = true) :
    ∃ v plat,
      (EncodingVars.new defs world).forDimsAt p d = some v ∧
      (EncodingVars.new defs world).varToPlatform v = some plat ∧
      plat.point = p ∧ plat.dims.deq d = true ∧
      plat.rotated = !(plat.pdef.dims.deq d) := by
  have htile := new_tileAt defs world hwf p hp
  obtain ⟨pd, hpd, hpdd⟩ := hd
  have hkey : ∃ k ∈ (dimsPlatformMap defs).map (·.1), k.deq d = true := by
    rcases hpdd with h' | h'
    · obtain ⟨ks, hks, hdeq⟩ := (dimsPlatformMap_key_of_def defs [] pd hpd).1
      exact ⟨ks.1, List.mem_map_of_mem _ hks, Dimensions.deq_trans hdeq h'⟩
    · obtain ⟨ks, hks, hdeq⟩ := (dimsPlatformMap_key_of_def defs [] pd hpd).2
      exact ⟨ks.1, List.mem_map_of_mem _ hks, Dimensions.deq_trans hdeq h'⟩
  obtain ⟨k, v, hfind, hkdeq, hmemzip⟩ := zip_find?_deq d
    ((dimsPlatformMap defs).map (·.1))
    (allocTotal ((dimsPlatformMap defs).map (·.1)) world
      (world.dims.iterWithin.take (p.x.toNat + p.y.toNat * world.dims.width)))
    hkey
  have hforDims : (EncodingVars.new defs world).forDimsAt p d = some v := by
    rw [EncodingVars.forDimsAt, htile, Option.some_bind, EncodingTileVars.forDims]
    show (((dimsPlatformMap defs).map (·.1)).zip
        (List.range' _ ((dimsPlatformMap defs).map (·.1)).length)
      |>.find? (fun kv => kv.1.deq d)).map (·.2) = some v
    rw [hfind]
    rfl
  have hentry : (v, EncodedItem.platform p k) ∈ (EncodingVars.new defs world).varMap := by
    rw [new_varMap_eq]
    apply List.mem_flatMap.mpr
    refine ⟨(p, mkTile ((dimsPlatformMap defs).map (·.1)) ((world.get p).getD false)
        (allocTotal ((dimsPlatformMap defs).map (·.1)) world
          (world.dims.iterWithin.take
            (p.x.toNat + p.y.toNat * world.dims.width)))), ?_, ?_⟩
    · exact enumerate_mem_of_get _ (new_grid_wf defs world hwf) p _ htile
    · rw [tileEntries]
      exact List.mem_append_left _ (List.mem_map.mpr ⟨(k, v), hmemzip, rfl⟩)
  have hnd : ((EncodingVars.new defs world).varMap.map (·.1)).Nodup := by
    rw [new_varMap_keys, new_allocatedVars]
    exact List.nodup_range' _ _
  have hvm : varMapGet (EncodingVars.new defs world).varMap v =
      some (.platform p k) := varMapGet_of_mem _ _ _ hnd hentry
  have hkmem : k ∈ (dimsPlatformMap defs).map (·.1) := (List.mem_zip hmemzip).1
  obtain ⟨ks, hks, hksk⟩ := List.mem_map.mp hkmem
  have hget : dimMapGet (dimsPlatformMap defs) k = some ks.2 := by
    apply dimMapGet_of_mem _ _ _ (dimsPlatformMap_keysND defs)
    rw [← hksk]
    exact (Prod.mk.eta (p := ks)).symm ▸ hks
  obtain ⟨hne, hall⟩ := dimsPlatformMap_inv defs ks hks
  obtain ⟨d0, tail, hs⟩ := List.exists_cons_of_ne_nil hne
  have hvtp : (EncodingVars.new defs world).varToPlatform v =
      some ⟨p, d0, !(d0.dims.deq k)⟩ := by
    have hstep : (EncodingVars.new defs world).varToPlatform v =
        (match dimMapGet (dimsPlatformMap defs) k with
          | some (d0 :: _) => some (⟨p, d0, !(d0.dims.deq k)⟩ : Platform)
          | _ => none) := by
      rw [EncodingVars.varToPlatform, hvm]
      rfl
    rw [hstep, hget, hs]
  have hd0 : d0.dims.deq ks.1 = true ∨ d0.dims.flipped.deq ks.1 = true :=
    hall d0 (by rw [hs]; simp)
  rw [hksk] at hd0
  refine ⟨v, ⟨p, d0, !(d0.dims.deq k)⟩, hforDims, hvtp, rfl, ?_, ?_⟩
  · cases hb : d0.dims.deq k
    · have hflip : (⟨p, d0, !false⟩ : Platform).dims = d0.dims.flipped := rfl
      rw [hflip]
      rcases hd0 with hd0 | hd0
      · rw [hd0] at hb
        simp at hb
      · exact Dimensions.deq_trans hd0 hkdeq
    · have hsame : (⟨p, d0, !true⟩ : Platform).dims = d0.dims := rfl
      rw [hsame]
      exact Dimensions.deq_trans hb hkdeq
  · show (!(d0.dims.deq k)) = (!(d0.dims.deq d))
    rw [Dimensions.deq_congr d0.dims k d hkdeq]

/-- Witness for C7 at a concrete catalog, world, origin, and a rotated
footprint dimension. -/
theorem c7_round_trip_witness :
    Grid.Wf (⟨[true], ⟨1, 1⟩⟩ : Grid Bool) ∧
    (⟨[true], ⟨1, 1⟩⟩ : Grid Bool).dims.contains ⟨0, 0⟩ = true ∧
    (∃ pd ∈ [(⟨⟨3, 1⟩⟩ : PlatformDef), ⟨⟨2, 3⟩⟩],
      pd.dims.deq ⟨1, 3⟩ = true ∨ pd.dims.flipped.deq ⟨1, 3⟩ = true) ∧
    ∃ v plat,
      (EncodingVars.new [⟨⟨3, 1⟩⟩, ⟨⟨2, 3⟩⟩]
        ⟨[true], ⟨1, 1⟩⟩).forDimsAt ⟨0, 0⟩ ⟨1, 3⟩ = some v ∧
      (EncodingVars.new [⟨⟨3, 1⟩⟩, ⟨⟨2, 3⟩⟩]
        ⟨[true], ⟨1, 1⟩⟩).varToPlatform v = some plat ∧
      plat.point = ⟨0, 0⟩ ∧ plat.dims.deq ⟨1, 3⟩ = true ∧
      plat.rotated = !(plat.pdef.dims.deq ⟨1, 3⟩) :=
  ⟨by constructor <;> simp [Grid.Wf], by decide, by decide,
    c7_round_trip [⟨⟨3, 1⟩⟩, ⟨⟨2, 3⟩⟩] ⟨[true], ⟨1, 1⟩⟩
      (by constructor <;> simp [Grid.Wf]) ⟨0, 0⟩ ⟨1, 3⟩ (by decide) (by decide)⟩

/-- The per-cell record of the validator's tracking grid
(`struct Tile` inside `PlatformLayout::validate`; the `&Platform`
reference is modelled by value). -/
structure VTile where
  terrainSupported : Option Bool
  occupiedBy : Option Platform
deriving DecidableEq, Repr

/-- `HashSet::insert` on a platform set. -/
def insertSet (l : List Platform) (x : Platform) : List Platform :=
  if x ∈ l then l else l ++ [x]

/-- The absolute cells of a platform's footprint
(`plat.dims().iter_within()` shifted by `offset + plat.point()`). -/
def platCells (plat : Platform) : List Point :=
  plat.dims.iterWithin.map (fun off => off.add plat.point)

/-- One cell step of the painting loop of `validate`: an occupied cell
records the overlap pair, a free cell becomes occupied, and either way
a terrain cell under the platform becomes supported; an out-of-bounds
cell sends the platform to the out-of-bounds set. -/
def paintCell (plat : Platform)
    (st : Grid VTile × List Platform × List Platform) (point : Point) :
    Grid VTile × List Platform × List Platform :=
  match st.1.get point with
  | some tile =>
    match tile.occupiedBy with
    | some other =>
      (st.1.setAt point
          { tile with terrainSupported := tile.terrainSupported.map (fun _ => true) },
        insertSet (insertSet st.2.1 plat) other, st.2.2)
    | none =>
      (st.1.setAt point
          ⟨tile.terrainSupported.map (fun _ => true), some plat⟩,
        st.2.1, st.2.2)
  | none => (st.1, st.2.1, insertSet st.2.2 plat)

/-- Painting one platform over all of its footprint cells. -/
def paintPlat (st : Grid VTile × List Platform × List Platform)
    (plat : Platform) : Grid VTile × List Platform × List Platform :=
  (platCells plat).foldl (paintCell plat) st

/-- The painting loop over the layout's platforms. -/
def paintAll (layout : List (Point × Platform)) (g0 : Grid VTile) :
    Grid VTile × List Platform × List Platform :=
  layout.foldl (fun st kv => paintPlat st kv.2) (g0, [], [])

/-- Marking one point of the diffusion round (`get_mut` guarded by
`terrain_supported.is_some()`). -/
def markSupported (g : Grid VTile) (p : Point) : Grid VTile :=
  match g.get p with
  | some tile =>
    if tile.terrainSupported.isSome then
      g.setAt p { tile with terrainSupported := some true }
    else g
  | none => g

/-- The snapshot of supported cells taken at the start of a diffusion
round. -/
def supportedPoints (g : Grid VTile) : List Point :=
  g.enumerate.filterMap
    (fun pt => if pt.2.terrainSupported = some true then some pt.1 else none)

/-- One diffusion round: the neighbors of all currently supported
cells are computed from a snapshot, then marked.  (The source collects
them into a `HashSet`; marking is idempotent, so the duplicate-free
order of iteration is immaterial.) -/
def diffuseRound (g : Grid VTile) : Grid VTile :=
  ((supportedPoints g).flatMap Point.neighbors).foldl markSupported g

/-- `ValidationResult` (`src/encoder/platform_layout.rs`), with the
three hash sets as duplicate-free lists. -/
structure ValidationResult where
  unsupportedTerrain : List Point
  overlappingPlatforms : List Platform
  outOfBoundsPlatforms : List Platform
deriving DecidableEq, Repr

/-- `ValidationResult::is_valid`. -/
def ValidationResult.isValid (r : ValidationResult) : Bool :=
  r.unsupportedTerrain.isEmpty && r.overlappingPlatforms.isEmpty &&
    r.outOfBoundsPlatforms.isEmpty

/-- The initial tracking grid of `validate`: terrain cells start
unsupported (`b.then_some(false)`), nothing occupied. -/
def trackInit (world : Grid Bool) : Grid VTile :=
  ⟨world.data.map (fun b => ⟨if b then some false else none, none⟩), world.dims⟩

/-- `PlatformLayout::validate`: paint the footprints, run `K-1`
diffusion rounds, and collect the still-unsupported terrain cells. -/
def validate (layout : List (Point × Platform)) (world : Grid Bool) :
    ValidationResult :=
  { unsupportedTerrain :=
      (diffuseRound^[TERRAIN_SUPPORT_DISTANCE - 1]
          (paintAll layout (trackInit world)).1).enumerate.filterMap
        (fun pt => if pt.2.terrainSupported = some false
          then some pt.1 else none),
    overlappingPlatforms := (paintAll layout (trackInit world)).2.1,
    outOfBoundsPlatforms := (paintAll layout (trackInit world)).2.2 }

/-- A world point covered by some platform of the layout. -/
def coveredB (layout : List (Point × Platform)) (p : Point) : Bool :=
  layout.any (fun kv => p ∈ platCells kv.2)

/-- A terrain cell of the world. -/
def isTerrainB (world : Grid Bool) (p : Point) : Bool := (world.get p).getD false

/-- `p` is reachable from a platform-covered terrain cell in at most
`n` hops, every hop landing on a terrain cell. -/
def withinHopsB (layout : List (Point × Platform)) (world : Grid Bool) :
    Nat → Point → Bool
  | 0, p => isTerrainB world p && coveredB layout p
  | n + 1, p =>
    withinHopsB layout world n p ||
      (isTerrainB world p && p.neighbors.any (withinHopsB layout world n))

/-- The terrain-support flag of the tracking grid at a point (out of
bounds reads as no terrain). -/
def tsAt (g : Grid VTile) (q : Point) : Option Bool :=
  (g.get q).bind VTile.terrainSupported

/-- The occupant of the tracking grid at a point. -/
def occAt (g : Grid VTile) (q : Point) : Option Platform :=
  (g.get q).bind VTile.occupiedBy

theorem Point.add_left_injective (b : Point) :
    Function.Injective (fun (p : Point) => p.add b) := by
  intro u v h
  cases u; cases v
  simp only [Point.add, Point.mk.injEq] at h ⊢
  omega

theorem platCells_nodup (plat : Platform) : (platCells plat).Nodup :=
  (Dimensions.iterWithin_nodup plat.dims).map (Point.add_left_injective plat.point)

theorem mem_insertSet_iff (l : List Platform) (x y : Platform) :
    y ∈ insertSet l x ↔ y = x ∨ y ∈ l := by
  rw [insertSet]
  split
  · constructor
    · exact Or.inr
    · rintro (rfl | hy) <;> [assumption; assumption]
  · simp [List.mem_append, or_comm]

theorem mem_insertSet_self (l : List Platform) (x : Platform) :
    x ∈ insertSet l x := (mem_insertSet_iff l x x).2 (Or.inl rfl)

theorem mem_insertSet_of_mem (l : List Platform) (x y : Platform)
    (h : y ∈ l) : y ∈ insertSet l x := (mem_insertSet_iff l x y).2 (Or.inr h)

theorem Grid.dims_setAt {α : Type} (g : Grid α) (p : Point) (v : α) :
    (g.setAt p v).dims = g.dims := by
  rw [setAt]
  split <;> rfl

theorem Grid.dataIndex_setAt {α : Type} (g : Grid α) (p q : Point) (v : α) :
    (g.setAt p v).dataIndex q = g.dataIndex q := by
  rw [dataIndex, dataIndex, Grid.dims_setAt]

theorem Grid.length_setAt {α : Type} (g : Grid α) (p : Point) (v : α) :
    (g.setAt p v).data.length = g.data.length := by
  rw [setAt]
  split
  · exact List.length_set _ _ _
  · rfl

/-- Distinct contained points have distinct row-major indices. -/
theorem Grid.dataIndex_inj {α : Type} (g : Grid α) (p q : Point) (i : Nat)
    (hp : g.dataIndex p = some i) (hq : g.dataIndex q = some i) : p = q := by
  rw [dataIndex] at hp hq
  split at hp
  case isTrue hcp =>
    split at hq
    case isTrue hcq =>
      simp only [Option.some.injEq] at hp hq
      cases p with
      | mk px py =>
        cases q with
        | mk qx qy =>
          simp only [Dimensions.contains, Bool.and_eq_true,
            decide_eq_true_eq] at hcp hcq
          simp only at hp hq
          simp only [Point.mk.injEq]
          have hpx : px.toNat < g.dims.width := by omega
          have hqx : qx.toNat < g.dims.width := by omega
          have hx : px.toNat = qx.toNat ∧ py.toNat = qy.toNat := by
            constructor
            · have := congrArg (· % g.dims.width) (hp.trans hq.symm)
              simpa [Nat.add_mul_mod_self_right, Nat.mod_eq_of_lt hpx,
                Nat.mod_eq_of_lt hqx] using this
            · have := congrArg (· / g.dims.width) (hp.trans hq.symm)
              simpa [Nat.add_mul_div_right _ _ (by omega : 0 < g.dims.width),
                Nat.div_eq_of_lt hpx, Nat.div_eq_of_lt hqx] using this
          omega
    case isFalse => exact absurd hq (by simp)
  case isFalse => exact absurd hp (by simp)

theorem Grid.get_setAt_ne {α : Type} (g : Grid α) (p q : Point) (v : α)
    (h : q ≠ p) : (g.setAt p v).get q = g.get q := by
  rw [get, get, Grid.dataIndex_setAt]
  cases hq : g.dataIndex q with
  | none => rfl
  | some j =>
    simp only [Option.some_bind]
    rw [setAt]
    cases hp : g.dataIndex p with
    | none => rfl
    | some i =>
      have hij : i ≠ j := by
        intro hji
        exact h (Grid.dataIndex_inj g q p i (hji ▸ hq) hp)
      simp only
      rw [List.get?_eq_getElem?, List.get?_eq_getElem?, List.getElem?_set_ne hij]

theorem Grid.get_setAt_self {α : Type} (g : Grid α) (p : Point) (v : α)
    (h : (g.get p).isSome = true) : (g.setAt p v).get p = some v := by
  rw [get] at h ⊢
  rw [Grid.dataIndex_setAt]
  cases hp : g.dataIndex p with
  | none => rw [hp] at h; simp at h
  | some i =>
    rw [hp] at h
    simp only [Option.some_bind] at h ⊢
    have hlen : i < g.data.length := by
      by_contra hge
      rw [List.get?_eq_getElem?, List.getElem?_eq_none (by omega)] at h
      simp at h
    rw [setAt, hp]
    simp only
    rw [List.get?_eq_getElem?, List.getElem?_set_self' ]
    simp [hlen]

theorem Grid.get_setAt_isSome {α : Type} (g : Grid α) (p q : Point) (v : α) :
    ((g.setAt p v).get q).isSome = (g.get q).isSome := by
  rw [get, get, Grid.dataIndex_setAt]
  cases hq : g.dataIndex q with
  | none => rfl
  | some j =>
    simp only [Option.some_bind]
    rw [List.get?_eq_getElem?, List.get?_eq_getElem?]
    have : (g.setAt p v).data.length = g.data.length := Grid.length_setAt g p v
    by_cases hj : j < g.data.length
    · rw [List.getElem?_eq_getElem (by omega), List.getElem?_eq_getElem hj]
      simp
    · rw [List.getElem?_eq_none (by omega), List.getElem?_eq_none (by omega)]

/-- Converse of `enumerate_mem_of_get`: every enumerated entry of a
well-formed grid is readable back through `get`. -/
theorem get_of_enumerate_mem {α : Type} (g : Grid α) (hg : g.Wf) (p : Point)
    (t : α) (h : (p, t) ∈ g.enumerate) : g.get p = some t := by
  rw [Grid.enumerate] at h
  obtain ⟨iv, hiv, heq⟩ := List.mem_map.1 h
  obtain ⟨hp, ht⟩ := Prod.mk.injEq _ _ _ _ ▸ heq
  obtain ⟨i, v⟩ := iv
  have hmem := List.mem_enum_iff_getElem?.1 hiv
  have hi : i < g.data.length := by
    by_contra hge
    rw [List.getElem?_eq_none (by omega)] at hmem
    exact Option.noConfusion hmem
  subst hp ht
  rw [grid_get_indexToPoint g hg i hi, List.get?_eq_getElem?, hmem]

theorem paintCell_of_none (plat : Platform)
    (st : Grid VTile × List Platform × List Platform) (c : Point)
    (hc : st.1.get c = none) :
    paintCell plat st c = (st.1, st.2.1, insertSet st.2.2 plat) := by
  unfold paintCell
  rw [hc]

theorem paintCell_of_occupied (plat other : Platform) (ts : Option Bool)
    (st : Grid VTile × List Platform × List Platform) (c : Point)
    (hc : st.1.get c = some ⟨ts, some other⟩) :
    paintCell plat st c =
      (st.1.setAt c ⟨ts.map (fun _ => true), some other⟩,
        insertSet (insertSet st.2.1 plat) other, st.2.2) := by
  unfold paintCell
  rw [hc]

theorem paintCell_of_free (plat : Platform) (ts : Option Bool)
    (st : Grid VTile × List Platform × List Platform) (c : Point)
    (hc : st.1.get c = some ⟨ts, none⟩) :
    paintCell plat st c =
      (st.1.setAt c ⟨ts.map (fun _ => true), some plat⟩, st.2.1, st.2.2) := by
  unfold paintCell
  rw [hc]

theorem paintCell_grid_ne (plat : Platform)
    (st : Grid VTile × List Platform × List Platform) (c q : Point)
    (h : q ≠ c) : (paintCell plat st c).1.get q = st.1.get q := by
  cases hc : st.1.get c with
  | none => rw [paintCell_of_none plat st c hc]
  | some tile =>
    obtain ⟨ts, occ⟩ := tile
    cases occ with
    | none =>
      rw [paintCell_of_free plat ts st c hc]
      exact Grid.get_setAt_ne _ _ _ _ h
    | some other =>
      rw [paintCell_of_occupied plat other ts st c hc]
      exact Grid.get_setAt_ne _ _ _ _ h

theorem paintCell_isSome (plat : Platform)
    (st : Grid VTile × List Platform × List Platform) (c q : Point) :
    ((paintCell plat st c).1.get q).isSome = (st.1.get q).isSome := by
  cases hc : st.1.get c with
  | none => rw [paintCell_of_none plat st c hc]
  | some tile =>
    obtain ⟨ts, occ⟩ := tile
    cases occ with
    | none =>
      rw [paintCell_of_free plat ts st c hc]
      exact Grid.get_setAt_isSome _ _ _ _
    | some other =>
      rw [paintCell_of_occupied plat other ts st c hc]
      exact Grid.get_setAt_isSome _ _ _ _

theorem paintCell_ov_mono (plat x : Platform)
    (st : Grid VTile × List Platform × List Platform) (c : Point)
    (h : x ∈ st.2.1) : x ∈ (paintCell plat st c).2.1 := by
  cases hc : st.1.get c with
  | none => rw [paintCell_of_none plat st c hc]; exact h
  | some tile =>
    obtain ⟨ts, occ⟩ := tile
    cases occ with
    | none => rw [paintCell_of_free plat ts st c hc]; exact h
    | some other =>
      rw [paintCell_of_occupied plat other ts st c hc]
      exact mem_insertSet_of_mem _ _ _ (mem_insertSet_of_mem _ _ _ h)

theorem paintCell_oob_eq (plat : Platform)
    (st : Grid VTile × List Platform × List Platform) (c : Point)
    (h : (st.1.get c).isSome = true) : (paintCell plat st c).2.2 = st.2.2 := by
  cases hc : st.1.get c with
  | none => rw [hc] at h; simp at h
  | some tile =>
    obtain ⟨ts, occ⟩ := tile
    cases occ with
    | none => rw [paintCell_of_free plat ts st c hc]
    | some other => rw [paintCell_of_occupied plat other ts st c hc]

theorem paintCell_occ_stable (plat P : Platform)
    (st : Grid VTile × List Platform × List Platform) (c q : Point)
    (h : occAt st.1 q = some P) : occAt (paintCell plat st c).1 q = some P := by
  by_cases hqc : q = c
  · subst hqc
    rw [occAt] at h
    cases hc : st.1.get q with
    | none => rw [hc] at h; simp at h
    | some tile =>
      obtain ⟨ts, occ⟩ := tile
      rw [hc] at h
      simp only [Option.some_bind] at h
      cases occ with
      | none => exact absurd h (by simp)
      | some other =>
        have hP : other = P := by simpa using h
        subst hP
        rw [occAt, paintCell_of_occupied plat other ts st q hc]
        rw [Grid.get_setAt_self _ _ _ (by rw [hc]; rfl)]
        rfl
  · rw [occAt, paintCell_grid_ne plat st c q hqc]
    exact h

theorem paintCell_hit_occupied (plat P : Platform) (ts : Option Bool)
    (st : Grid VTile × List Platform × List Platform) (c : Point)
    (hc : st.1.get c = some ⟨ts, some P⟩) :
    plat ∈ (paintCell plat st c).2.1 ∧ P ∈ (paintCell plat st c).2.1 := by
  rw [paintCell_of_occupied plat P ts st c hc]
  exact ⟨mem_insertSet_of_mem _ _ _ (mem_insertSet_self _ _),
    mem_insertSet_self _ _⟩

theorem paintCell_occupies (plat : Platform) (ts : Option Bool)
    (st : Grid VTile × List Platform × List Platform) (c : Point)
    (hc : st.1.get c = some ⟨ts, none⟩) :
    occAt (paintCell plat st c).1 c = some plat ∧
      (paintCell plat st c).2 = st.2 := by
  rw [paintCell_of_free plat ts st c hc]
  constructor
  · rw [occAt, Grid.get_setAt_self _ _ _ (by rw [hc]; rfl)]
    rfl
  · rfl

theorem paintCell_ts (plat : Platform)
    (st : Grid VTile × List Platform × List Platform) (c q : Point) :
    tsAt (paintCell plat st c).1 q =
      if q = c ∧ (st.1.get c).isSome = true
      then (tsAt st.1 q).map (fun _ => true) else tsAt st.1 q := by
  by_cases hqc : q = c
  · subst hqc
    cases hc : st.1.get q with
    | none =>
      simp only [hc, Option.isSome_none, Bool.false_eq_true, and_false,
        if_false]
      rw [tsAt, tsAt, paintCell_of_none plat st q hc]
    | some tile =>
      obtain ⟨ts, occ⟩ := tile
      simp only [hc, Option.isSome_some, and_true, if_pos rfl]
      have hts : tsAt st.1 q = ts := by rw [tsAt, hc]; rfl
      cases occ with
      | none =>
        rw [tsAt, paintCell_of_free plat ts st q hc,
          Grid.get_setAt_self _ _ _ (by rw [hc]; rfl), hts]
        rfl
      | some other =>
        rw [tsAt, paintCell_of_occupied plat other ts st q hc,
          Grid.get_setAt_self _ _ _ (by rw [hc]; rfl), hts]
        rfl
  · simp only [hqc, false_and, if_false]
    rw [tsAt, tsAt, paintCell_grid_ne plat st c q hqc]

theorem foldl_paintCell_isSome (plat : Platform) :
    ∀ (cs : List Point) (st : Grid VTile × List Platform × List Platform)
      (q : Point),
      ((cs.foldl (paintCell plat) st).1.get q).isSome = (st.1.get q).isSome
  | [], _, _ => rfl
  | c :: cs, st, q => by
    rw [List.foldl_cons, foldl_paintCell_isSome plat cs, paintCell_isSome]

theorem foldl_paintCell_ov_mono (plat x : Platform) :
    ∀ (cs : List Point) (st : Grid VTile × List Platform × List Platform),
      x ∈ st.2.1 → x ∈ (cs.foldl (paintCell plat) st).2.1
  | [], _, h => h
  | c :: cs, st, h => by
    rw [List.foldl_cons]
    exact foldl_paintCell_ov_mono plat x cs _ (paintCell_ov_mono plat x st c h)

theorem foldl_paintCell_occ_stable (plat P : Platform) :
    ∀ (cs : List Point) (st : Grid VTile × List Platform × List Platform)
      (q : Point), occAt st.1 q = some P →
      occAt (cs.foldl (paintCell plat) st).1 q = some P
  | [], _, _, h => h
  | c :: cs, st, q, h => by
    rw [List.foldl_cons]
    exact foldl_paintCell_occ_stable plat P cs _ q
      (paintCell_occ_stable plat P st c q h)

theorem foldl_paintCell_grid_ne (plat : Platform) :
    ∀ (cs : List Point) (st : Grid VTile × List Platform × List Platform)
      (q : Point), q ∉ cs →
      (cs.foldl (paintCell plat) st).1.get q = st.1.get q
  | [], _, _, _ => rfl
  | c :: cs, st, q, h => by
    rw [List.foldl_cons,
      foldl_paintCell_grid_ne plat cs _ q (fun hm => h (List.mem_cons_of_mem _ hm)),
      paintCell_grid_ne plat st c q (fun he => h (he ▸ List.mem_cons_self _ _))]

theorem foldl_paintCell_oob_eq (plat : Platform) :
    ∀ (cs : List Point) (st : Grid VTile × List Platform × List Platform),
      (∀ c ∈ cs, (st.1.get c).isSome = true) →
      (cs.foldl (paintCell plat) st).2.2 = st.2.2
  | [], _, _ => rfl
  | c :: cs, st, h => by
    rw [List.foldl_cons]
    rw [foldl_paintCell_oob_eq plat cs _ (fun c' hc' => by
      rw [paintCell_isSome]
      exact h c' (List.mem_cons_of_mem _ hc'))]
    exact paintCell_oob_eq plat st c (h c (List.mem_cons_self _ _))

theorem foldl_paintCell_hit_occupied (plat P : Platform) :
    ∀ (cs : List Point) (st : Grid VTile × List Platform × List Platform)
      (c : Point), c ∈ cs → occAt st.1 c = some P →
      plat ∈ (cs.foldl (paintCell plat) st).2.1 ∧
        P ∈ (cs.foldl (paintCell plat) st).2.1
  | [], _, _, hmem, _ => absurd hmem (List.not_mem_nil _)
  | c0 :: cs, st, c, hmem, hocc => by
    rw [List.foldl_cons]
    by_cases hcc : c = c0
    · subst hcc
      rw [occAt] at hocc
      cases hc : st.1.get c with
      | none => rw [hc] at hocc; simp at hocc
      | some tile =>
        obtain ⟨ts, occ⟩ := tile
        rw [hc] at hocc
        simp only [Option.some_bind] at hocc
        cases occ with
        | none => exact absurd hocc (by simp)
        | some other =>
          have hP : other = P := by simpa using hocc
          subst hP
          have hhit := paintCell_hit_occupied plat other ts st c hc
          exact ⟨foldl_paintCell_ov_mono plat plat cs _ hhit.1,
            foldl_paintCell_ov_mono plat other cs _ hhit.2⟩
    · have hmem' : c ∈ cs := by
        cases List.mem_cons.1 hmem with
        | inl h => exact absurd h hcc
        | inr h => exact h
      exact foldl_paintCell_hit_occupied plat P cs _ c hmem'
        (paintCell_occ_stable plat P st c0 c hocc)

theorem foldl_paintCell_occupies (plat : Platform) :
    ∀ (cs : List Point) (st : Grid VTile × List Platform × List Platform)
      (c : Point), cs.Nodup → c ∈ cs → occAt st.1 c = none →
      (st.1.get c).isSome = true →
      occAt (cs.foldl (paintCell plat) st).1 c = some plat
  | [], _, _, _, hmem, _, _ => absurd hmem (List.not_mem_nil _)
  | c0 :: cs, st, c, hnd, hmem, hocc, hsome => by
    rw [List.foldl_cons]
    by_cases hcc : c = c0
    · subst hcc
      rw [occAt] at hocc
      cases hc : st.1.get c with
      | none => rw [hc] at hsome; simp at hsome
      | some tile =>
        obtain ⟨ts, occ⟩ := tile
        rw [hc] at hocc
        simp only [Option.some_bind] at hocc
        cases occ with
        | some other => exact absurd hocc (by simp)
        | none =>
          have hoccup := paintCell_occupies plat ts st c hc
          have hnotin : c ∉ cs := (List.nodup_cons.1 hnd).1
          rw [occAt, foldl_paintCell_grid_ne plat cs _ c hnotin]
          exact hoccup.1
    · have hmem' : c ∈ cs := by
        cases List.mem_cons.1 hmem with
        | inl h => exact absurd h hcc
        | inr h => exact h
      refine foldl_paintCell_occupies plat cs _ c (List.nodup_cons.1 hnd).2
        hmem' ?_ ?_
      · rw [occAt, paintCell_grid_ne plat st c0 c hcc]
        exact hocc
      · rw [paintCell_isSome]
        exact hsome

theorem foldl_paintCell_free (plat : Platform) :
    ∀ (cs : List Point) (st : Grid VTile × List Platform × List Platform),
      cs.Nodup →
      (∀ c ∈ cs, occAt st.1 c = none ∧ (st.1.get c).isSome = true) →
      (cs.foldl (paintCell plat) st).2 = st.2 ∧
        (∀ q P, occAt (cs.foldl (paintCell plat) st).1 q = some P →
          occAt st.1 q = some P ∨ (P = plat ∧ q ∈ cs))
  | [], _, _, _ => ⟨rfl, fun _ _ h => Or.inl h⟩
  | c0 :: cs, st, hnd, hfree => by
    rw [List.foldl_cons]
    obtain ⟨hocc0, hsome0⟩ := hfree c0 (List.mem_cons_self _ _)
    rw [occAt] at hocc0
    cases hc : st.1.get c0 with
    | none => rw [hc] at hsome0; simp at hsome0
    | some tile =>
      obtain ⟨ts, occ⟩ := tile
      rw [hc] at hocc0
      simp only [Option.some_bind] at hocc0
      cases occ with
      | some other => exact absurd hocc0 (by simp)
      | none =>
        have hoccup := paintCell_occupies plat ts st c0 hc
        have hrest : ∀ c ∈ cs, occAt (paintCell plat st c0).1 c = none ∧
            ((paintCell plat st c0).1.get c).isSome = true := by
          intro c hcmem
          have hne : c ≠ c0 := fun he => (List.nodup_cons.1 hnd).1 (he ▸ hcmem)
          constructor
          · rw [occAt, paintCell_grid_ne plat st c0 c hne]
            exact (hfree c (List.mem_cons_of_mem _ hcmem)).1
          · rw [paintCell_isSome]
            exact (hfree c (List.mem_cons_of_mem _ hcmem)).2
        obtain ⟨hsnd, hoccchar⟩ :=
          foldl_paintCell_free plat cs (paintCell plat st c0)
            (List.nodup_cons.1 hnd).2 hrest
        refine ⟨hsnd.trans hoccup.2, fun q P hq => ?_⟩
        cases hoccchar q P hq with
        | inr h => exact Or.inr ⟨h.1, List.mem_cons_of_mem _ h.2⟩
        | inl h =>
          by_cases hqc : q = c0
          · subst hqc
            rw [hoccup.1] at h
            have hPp : some plat = some P := h
            exact Or.inr ⟨(Option.some.inj hPp).symm, List.mem_cons_self _ _⟩
          · rw [occAt, paintCell_grid_ne plat st c0 q hqc] at h
            exact Or.inl h

theorem foldl_paintCell_ts (plat : Platform) :
    ∀ (cs : List Point) (st : Grid VTile × List Platform × List Platform)
      (q : Point),
      tsAt (cs.foldl (paintCell plat) st).1 q =
        if q ∈ cs ∧ (st.1.get q).isSome = true
        then (tsAt st.1 q).map (fun _ => true) else tsAt st.1 q
  | [], st, q => by simp
  | c0 :: cs, st, q => by
    rw [List.foldl_cons, foldl_paintCell_ts plat cs _ q, paintCell_isSome,
      paintCell_ts]
    by_cases hC : q = c0
    · subst hC
      by_cases hA : q ∈ cs <;> by_cases hB : (st.1.get q).isSome = true <;>
        cases htt : tsAt st.1 q <;> simp [hA, hB, htt]
    · by_cases hA : q ∈ cs <;> by_cases hB : (st.1.get q).isSome = true <;>
        cases htt : tsAt st.1 q <;> simp [hA, hB, hC, htt]

theorem paintCell_dims (plat : Platform)
    (st : Grid VTile × List Platform × List Platform) (c : Point) :
    (paintCell plat st c).1.dims = st.1.dims := by
  cases hc : st.1.get c with
  | none => rw [paintCell_of_none plat st c hc]
  | some tile =>
    obtain ⟨ts, occ⟩ := tile
    cases occ with
    | none => rw [paintCell_of_free plat ts st c hc]; exact Grid.dims_setAt _ _ _
    | some other =>
      rw [paintCell_of_occupied plat other ts st c hc]
      exact Grid.dims_setAt _ _ _

theorem paintCell_length (plat : Platform)
    (st : Grid VTile × List Platform × List Platform) (c : Point) :
    (paintCell plat st c).1.data.length = st.1.data.length := by
  cases hc : st.1.get c with
  | none => rw [paintCell_of_none plat st c hc]
  | some tile =>
    obtain ⟨ts, occ⟩ := tile
    cases occ with
    | none =>
      rw [paintCell_of_free plat ts st c hc]
      exact Grid.length_setAt _ _ _
    | some other =>
      rw [paintCell_of_occupied plat other ts st c hc]
      exact Grid.length_setAt _ _ _

theorem foldl_paintCell_dims (plat : Platform) :
    ∀ (cs : List Point) (st : Grid VTile × List Platform × List Platform),
      (cs.foldl (paintCell plat) st).1.dims = st.1.dims
  | [], _ => rfl
  | c :: cs, st => by
    rw [List.foldl_cons, foldl_paintCell_dims plat cs, paintCell_dims]

theorem foldl_paintCell_length (plat : Platform) :
    ∀ (cs : List Point) (st : Grid VTile × List Platform × List Platform),
      (cs.foldl (paintCell plat) st).1.data.length = st.1.data.length
  | [], _ => rfl
  | c :: cs, st => by
    rw [List.foldl_cons, foldl_paintCell_length plat cs, paintCell_length]

theorem coveredB_cons (kv : Point × Platform) (l : List (Point × Platform))
    (q : Point) :
    coveredB (kv :: l) q = (decide (q ∈ platCells kv.2) || coveredB l q) := by
  simp [coveredB]

theorem foldl_paintPlat_isSome :
    ∀ (l : List (Point × Platform))
      (st : Grid VTile × List Platform × List Platform) (q : Point),
      ((l.foldl (fun st kv => paintPlat st kv.2) st).1.get q).isSome =
        (st.1.get q).isSome
  | [], _, _ => rfl
  | kv :: l, st, q => by
    rw [List.foldl_cons, foldl_paintPlat_isSome l, paintPlat,
      foldl_paintCell_isSome]

theorem foldl_paintPlat_dims :
    ∀ (l : List (Point × Platform))
      (st : Grid VTile × List Platform × List Platform),
      (l.foldl (fun st kv => paintPlat st kv.2) st).1.dims = st.1.dims
  | [], _ => rfl
  | kv :: l, st => by
    rw [List.foldl_cons, foldl_paintPlat_dims l, paintPlat,
      foldl_paintCell_dims]

theorem foldl_paintPlat_length :
    ∀ (l : List (Point × Platform))
      (st : Grid VTile × List Platform × List Platform),
      (l.foldl (fun st kv => paintPlat st kv.2) st).1.data.length =
        st.1.data.length
  | [], _ => rfl
  | kv :: l, st => by
    rw [List.foldl_cons, foldl_paintPlat_length l, paintPlat,
      foldl_paintCell_length]

theorem foldl_paintPlat_ov_mono (x : Platform) :
    ∀ (l : List (Point × Platform))
      (st : Grid VTile × List Platform × List Platform),
      x ∈ st.2.1 → x ∈ (l.foldl (fun st kv => paintPlat st kv.2) st).2.1
  | [], _, h => h
  | kv :: l, st, h => by
    rw [List.foldl_cons]
    refine foldl_paintPlat_ov_mono x l _ ?_
    rw [paintPlat]
    exact foldl_paintCell_ov_mono kv.2 x _ st h

theorem foldl_paintPlat_occ_stable (P : Platform) :
    ∀ (l : List (Point × Platform))
      (st : Grid VTile × List Platform × List Platform) (q : Point),
      occAt st.1 q = some P →
      occAt (l.foldl (fun st kv => paintPlat st kv.2) st).1 q = some P
  | [], _, _, h => h
  | kv :: l, st, q, h => by
    rw [List.foldl_cons]
    refine foldl_paintPlat_occ_stable P l _ q ?_
    rw [paintPlat]
    exact foldl_paintCell_occ_stable kv.2 P _ st q h

theorem foldl_paintPlat_oob_eq :
    ∀ (l : List (Point × Platform))
      (st : Grid VTile × List Platform × List Platform),
      (∀ kv ∈ l, ∀ q ∈ platCells kv.2, (st.1.get q).isSome = true) →
      (l.foldl (fun st kv => paintPlat st kv.2) st).2.2 = st.2.2
  | [], _, _ => rfl
  | kv :: l, st, h => by
    rw [List.foldl_cons]
    rw [foldl_paintPlat_oob_eq l _ (fun kv' hkv' q hq => by
      rw [paintPlat, foldl_paintCell_isSome]
      exact h kv' (List.mem_cons_of_mem _ hkv') q hq)]
    rw [paintPlat]
    exact foldl_paintCell_oob_eq kv.2 _ st
      (fun c hc => h kv (List.mem_cons_self _ _) c hc)

theorem foldl_paintPlat_in_of_occupied (Q P : Platform) (c : Point) :
    ∀ (l : List (Point × Platform))
      (st : Grid VTile × List Platform × List Platform),
      Q ∈ l.map Prod.snd → c ∈ platCells Q → occAt st.1 c = some P →
      Q ∈ (l.foldl (fun st kv => paintPlat st kv.2) st).2.1 ∧
        P ∈ (l.foldl (fun st kv => paintPlat st kv.2) st).2.1
  | [], _, hmem, _, _ => absurd hmem (by simp)
  | kv :: l, st, hmem, hcell, hocc => by
    rw [List.foldl_cons]
    by_cases hQ0 : kv.2 = Q
    · subst hQ0
      have hhit : kv.2 ∈ (paintPlat st kv.2).2.1 ∧ P ∈ (paintPlat st kv.2).2.1 := by
        rw [paintPlat]
        exact foldl_paintCell_hit_occupied kv.2 P (platCells kv.2) st c hcell hocc
      exact ⟨foldl_paintPlat_ov_mono kv.2 l _ hhit.1,
        foldl_paintPlat_ov_mono P l _ hhit.2⟩
    · have hmem' : Q ∈ l.map Prod.snd := by
        rw [List.map_cons] at hmem
        cases List.mem_cons.1 hmem with
        | inl h => exact absurd h.symm hQ0
        | inr h => exact h
      refine foldl_paintPlat_in_of_occupied Q P c l _ hmem' hcell ?_
      rw [paintPlat]
      exact foldl_paintCell_occ_stable kv.2 P _ st c hocc

theorem foldl_paintPlat_overlap (A B : Platform) (c : Point) :
    ∀ (l : List (Point × Platform))
      (st : Grid VTile × List Platform × List Platform),
      A ∈ l.map Prod.snd → B ∈ l.map Prod.snd → A ≠ B →
      c ∈ platCells A → c ∈ platCells B → occAt st.1 c = none →
      (st.1.get c).isSome = true →
      A ∈ (l.foldl (fun st kv => paintPlat st kv.2) st).2.1 ∧
        B ∈ (l.foldl (fun st kv => paintPlat st kv.2) st).2.1
  | [], _, hmem, _, _, _, _, _, _ => absurd hmem (by simp)
  | kv :: l, st, hA, hB, hAB, hcA, hcB, hocc, hsome => by
    rw [List.foldl_cons]
    by_cases hcc : c ∈ platCells kv.2
    · have hocc' : occAt (paintPlat st kv.2).1 c = some kv.2 := by
        rw [paintPlat]
        exact foldl_paintCell_occupies kv.2 (platCells kv.2) st c
          (platCells_nodup kv.2) hcc hocc hsome
      by_cases hA0 : kv.2 = A
      · have hBmem : B ∈ l.map Prod.snd := by
          rw [List.map_cons] at hB
          cases List.mem_cons.1 hB with
          | inl h => exact absurd (h.trans hA0).symm hAB
          | inr h => exact h
        have hocc2 : occAt (paintPlat st kv.2).1 c = some A := by
          rw [← hA0]
          exact hocc'
        have hres := foldl_paintPlat_in_of_occupied B A c l _ hBmem hcB hocc2
        exact ⟨hres.2, hres.1⟩
      · by_cases hB0 : kv.2 = B
        · have hAmem : A ∈ l.map Prod.snd := by
            rw [List.map_cons] at hA
            cases List.mem_cons.1 hA with
            | inl h => exact absurd (h.trans hB0) hAB
            | inr h => exact h
          have hocc2 : occAt (paintPlat st kv.2).1 c = some B := by
            rw [← hB0]
            exact hocc'
          exact foldl_paintPlat_in_of_occupied A B c l _ hAmem hcA hocc2
        · have hAmem : A ∈ l.map Prod.snd := by
            rw [List.map_cons] at hA
            cases List.mem_cons.1 hA with
            | inl h => exact absurd h.symm hA0
            | inr h => exact h
          have hBmem : B ∈ l.map Prod.snd := by
            rw [List.map_cons] at hB
            cases List.mem_cons.1 hB with
            | inl h => exact absurd h.symm hB0
            | inr h => exact h
          exact ⟨(foldl_paintPlat_in_of_occupied A kv.2 c l _ hAmem hcA hocc').1,
            (foldl_paintPlat_in_of_occupied B kv.2 c l _ hBmem hcB hocc').1⟩
    · have hA0 : kv.2 ≠ A := fun he => hcc (he ▸ hcA)
      have hB0 : kv.2 ≠ B := fun he => hcc (he ▸ hcB)
      have hAmem : A ∈ l.map Prod.snd := by
        rw [List.map_cons] at hA
        cases List.mem_cons.1 hA with
        | inl h => exact absurd h.symm hA0
        | inr h => exact h
      have hBmem : B ∈ l.map Prod.snd := by
        rw [List.map_cons] at hB
        cases List.mem_cons.1 hB with
        | inl h => exact absurd h.symm hB0
        | inr h => exact h
      have hgrid : (paintPlat st kv.2).1.get c = st.1.get c := by
        rw [paintPlat]
        exact foldl_paintCell_grid_ne kv.2 (platCells kv.2) st c hcc
      refine foldl_paintPlat_overlap A B c l _ hAmem hBmem hAB hcA hcB ?_ ?_
      · rw [occAt, hgrid]
        exact hocc
      · rw [hgrid]
        exact hsome

theorem foldl_paintPlat_ts :
    ∀ (l : List (Point × Platform))
      (st : Grid VTile × List Platform × List Platform) (q : Point),
      tsAt (l.foldl (fun st kv => paintPlat st kv.2) st).1 q =
        if coveredB l q = true ∧ (st.1.get q).isSome = true
        then (tsAt st.1 q).map (fun _ => true) else tsAt st.1 q
  | [], st, q => by simp [coveredB]
  | kv :: l, st, q => by
    rw [List.foldl_cons, foldl_paintPlat_ts l _ q, coveredB_cons, paintPlat,
      foldl_paintCell_ts, foldl_paintCell_isSome]
    by_cases hm : q ∈ platCells kv.2 <;>
      by_cases hcov : coveredB l q = true <;>
      by_cases hs : (st.1.get q).isSome = true <;>
      cases htt : tsAt st.1 q <;>
      simp [hm, hcov, hs, htt]

theorem foldl_paintPlat_no_overlap :
    ∀ (l : List (Point × Platform))
      (st : Grid VTile × List Platform × List Platform),
      l.Pairwise (fun a b => ∀ q ∈ platCells a.2, q ∉ platCells b.2) →
      (∀ kv ∈ l, ∀ q ∈ platCells kv.2, (st.1.get q).isSome = true) →
      (∀ q P, occAt st.1 q = some P → ∀ kv ∈ l, q ∉ platCells kv.2) →
      (l.foldl (fun st kv => paintPlat st kv.2) st).2.1 = st.2.1
  | [], _, _, _, _ => rfl
  | kv :: l, st, hpw, hsome, hoccv => by
    rw [List.foldl_cons]
    have hfree : ∀ c ∈ platCells kv.2,
        occAt st.1 c = none ∧ (st.1.get c).isSome = true := by
      intro c hcmem
      refine ⟨?_, hsome kv (List.mem_cons_self _ _) c hcmem⟩
      cases hoc : occAt st.1 c with
      | none => rfl
      | some P =>
        exact absurd hcmem (hoccv c P hoc kv (List.mem_cons_self _ _))
    obtain ⟨hsnd, hoccchar⟩ :=
      foldl_paintCell_free kv.2 (platCells kv.2) st
        (platCells_nodup kv.2) hfree
    have hpw' := (List.pairwise_cons.1 hpw)
    have hrec := foldl_paintPlat_no_overlap l (paintPlat st kv.2) hpw'.2
      (fun kv' hkv' q hq => by
        rw [paintPlat, foldl_paintCell_isSome]
        exact hsome kv' (List.mem_cons_of_mem _ hkv') q hq)
      (fun q P hq kv' hkv' => by
        cases hoccchar q P hq with
        | inl h => exact hoccv q P h kv' (List.mem_cons_of_mem _ hkv')
        | inr h => exact hpw'.1 kv' hkv' q h.2)
    rw [hrec]
    have : (paintPlat st kv.2).2.1 = st.2.1 := congrArg Prod.fst hsnd
    exact this

theorem trackInit_get (world : Grid Bool) (q : Point) :
    (trackInit world).get q =
      (world.get q).map (fun b => ⟨if b then some false else none, none⟩) := by
  have hdi : (trackInit world).dataIndex q = world.dataIndex q := rfl
  rw [Grid.get, Grid.get, hdi]
  cases hq : world.dataIndex q with
  | none => rfl
  | some i =>
    simp only [Option.some_bind]
    rw [trackInit]
    simp only
    rw [List.get?_eq_getElem?, List.get?_eq_getElem?, List.getElem?_map]

theorem trackInit_get_isSome (world : Grid Bool) (q : Point) :
    ((trackInit world).get q).isSome = (world.get q).isSome := by
  rw [trackInit_get]
  cases world.get q <;> rfl

theorem trackInit_wf (world : Grid Bool) (hwf : world.Wf) :
    (trackInit world).Wf := by
  constructor
  · rw [trackInit]
    simp only [List.length_map]
    exact hwf.1
  · exact hwf.2

theorem tsAt_trackInit (world : Grid Bool) (q : Point) :
    tsAt (trackInit world) q =
      (world.get q).bind (fun b => if b then some false else none) := by
  rw [tsAt, trackInit_get]
  cases world.get q with
  | none => rfl
  | some b => cases b <;> rfl

theorem tsAt_trackInit_isSome (world : Grid Bool) (q : Point) :
    (tsAt (trackInit world) q).isSome = isTerrainB world q := by
  rw [tsAt_trackInit, isTerrainB]
  cases hq : world.get q with
  | none => rfl
  | some b => cases b <;> rfl

theorem occAt_trackInit (world : Grid Bool) (q : Point) :
    occAt (trackInit world) q = none := by
  rw [occAt, trackInit_get]
  cases world.get q <;> rfl

theorem markSupported_of_none (g : Grid VTile) (p : Point)
    (h : g.get p = none) : markSupported g p = g := by
  unfold markSupported
  rw [h]

theorem markSupported_of_some (g : Grid VTile) (p : Point) (tile : VTile)
    (h : g.get p = some tile) :
    markSupported g p =
      if tile.terrainSupported.isSome = true
      then g.setAt p { tile with terrainSupported := some true } else g := by
  unfold markSupported
  rw [h]

theorem markSupported_ts (g : Grid VTile) (p q : Point) :
    tsAt (markSupported g p) q =
      if q = p ∧ (tsAt g p).isSome = true then some true else tsAt g q := by
  by_cases hqp : q = p
  · subst hqp
    cases hg : g.get q with
    | none =>
      rw [markSupported_of_none g q hg]
      simp [tsAt, hg]
    | some tile =>
      have hts : tsAt g q = tile.terrainSupported := by rw [tsAt, hg]; rfl
      rw [markSupported_of_some g q tile hg]
      by_cases hiss : tile.terrainSupported.isSome = true
      · rw [if_pos hiss, tsAt,
          Grid.get_setAt_self _ _ _ (by rw [hg]; rfl)]
        simp [hts, hiss]
      · rw [if_neg hiss, if_neg (by
          intro hcon
          exact hiss (hts ▸ hcon.2))]
  · simp only [hqp, false_and, if_false]
    cases hg : g.get p with
    | none => rw [markSupported_of_none g p hg]
    | some tile =>
      rw [markSupported_of_some g p tile hg]
      by_cases hiss : tile.terrainSupported.isSome = true
      · rw [if_pos hiss, tsAt, tsAt, Grid.get_setAt_ne _ _ _ _ hqp]
      · rw [if_neg hiss]

theorem markSupported_ts_isSome (g : Grid VTile) (p q : Point) :
    (tsAt (markSupported g p) q).isSome = (tsAt g q).isSome := by
  rw [markSupported_ts]
  by_cases h : q = p ∧ (tsAt g p).isSome = true
  · rw [if_pos h]
    obtain ⟨rfl, h2⟩ := h
    simp [h2]
  · rw [if_neg h]

theorem markSupported_get_isSome (g : Grid VTile) (p q : Point) :
    ((markSupported g p).get q).isSome = (g.get q).isSome := by
  cases hg : g.get p with
  | none => rw [markSupported_of_none g p hg]
  | some tile =>
    rw [markSupported_of_some g p tile hg]
    by_cases hiss : tile.terrainSupported.isSome = true
    · rw [if_pos hiss]
      exact Grid.get_setAt_isSome _ _ _ _
    · rw [if_neg hiss]

theorem markSupported_dims (g : Grid VTile) (p : Point) :
    (markSupported g p).dims = g.dims := by
  cases hg : g.get p with
  | none => rw [markSupported_of_none g p hg]
  | some tile =>
    rw [markSupported_of_some g p tile hg]
    by_cases hiss : tile.terrainSupported.isSome = true
    · rw [if_pos hiss]
      exact Grid.dims_setAt _ _ _
    · rw [if_neg hiss]

theorem markSupported_length (g : Grid VTile) (p : Point) :
    (markSupported g p).data.length = g.data.length := by
  cases hg : g.get p with
  | none => rw [markSupported_of_none g p hg]
  | some tile =>
    rw [markSupported_of_some g p tile hg]
    by_cases hiss : tile.terrainSupported.isSome = true
    · rw [if_pos hiss]
      exact Grid.length_setAt _ _ _
    · rw [if_neg hiss]

theorem foldl_markSupported_ts :
    ∀ (ps : List Point) (g : Grid VTile) (q : Point),
      tsAt (ps.foldl markSupported g) q =
        if q ∈ ps ∧ (tsAt g q).isSome = true then some true else tsAt g q
  | [], g, q => by simp
  | p0 :: ps, g, q => by
    rw [List.foldl_cons, foldl_markSupported_ts ps _ q,
      markSupported_ts_isSome, markSupported_ts]
    by_cases hq0 : q = p0
    · subst hq0
      by_cases hA : q ∈ ps <;> by_cases hB : (tsAt g q).isSome = true <;>
        simp [hA, hB]
    · by_cases hA : q ∈ ps <;> by_cases hB : (tsAt g q).isSome = true <;>
        by_cases hp0 : (tsAt g p0).isSome = true <;>
        simp [hA, hB, hq0, hp0]

theorem foldl_markSupported_ts_isSome :
    ∀ (ps : List Point) (g : Grid VTile) (q : Point),
      (tsAt (ps.foldl markSupported g) q).isSome = (tsAt g q).isSome
  | [], _, _ => rfl
  | p0 :: ps, g, q => by
    rw [List.foldl_cons, foldl_markSupported_ts_isSome ps,
      markSupported_ts_isSome]

theorem foldl_markSupported_get_isSome :
    ∀ (ps : List Point) (g : Grid VTile) (q : Point),
      ((ps.foldl markSupported g).get q).isSome = (g.get q).isSome
  | [], _, _ => rfl
  | p0 :: ps, g, q => by
    rw [List.foldl_cons, foldl_markSupported_get_isSome ps,
      markSupported_get_isSome]

theorem foldl_markSupported_dims :
    ∀ (ps : List Point) (g : Grid VTile),
      (ps.foldl markSupported g).dims = g.dims
  | [], _ => rfl
  | p0 :: ps, g => by
    rw [List.foldl_cons, foldl_markSupported_dims ps, markSupported_dims]

theorem foldl_markSupported_length :
    ∀ (ps : List Point) (g : Grid VTile),
      (ps.foldl markSupported g).data.length = g.data.length
  | [], _ => rfl
  | p0 :: ps, g => by
    rw [List.foldl_cons, foldl_markSupported_length ps, markSupported_length]

theorem mem_supportedPoints (g : Grid VTile) (hg : g.Wf) (q : Point) :
    q ∈ supportedPoints g ↔ tsAt g q = some true := by
  rw [supportedPoints]
  constructor
  · intro h
    obtain ⟨⟨p, t⟩, hmem, heq⟩ := List.mem_filterMap.1 h
    by_cases hts : t.terrainSupported = some true
    · rw [if_pos hts] at heq
      obtain rfl : p = q := Option.some.inj heq
      rw [tsAt, get_of_enumerate_mem g hg p t hmem]
      simpa using hts
    · rw [if_neg hts] at heq
      exact absurd heq (by simp)
  · intro h
    rw [tsAt] at h
    cases hgq : g.get q with
    | none => rw [hgq] at h; simp at h
    | some t =>
      rw [hgq] at h
      simp only [Option.some_bind] at h
      refine List.mem_filterMap.2 ⟨(q, t), enumerate_mem_of_get g hg q t hgq, ?_⟩
      rw [if_pos h]

theorem diffuseRound_ts_isSome (g : Grid VTile) (q : Point) :
    (tsAt (diffuseRound g) q).isSome = (tsAt g q).isSome := by
  rw [diffuseRound, foldl_markSupported_ts_isSome]

theorem diffuseRound_get_isSome (g : Grid VTile) (q : Point) :
    ((diffuseRound g).get q).isSome = (g.get q).isSome := by
  rw [diffuseRound, foldl_markSupported_get_isSome]

theorem diffuseRound_wf (g : Grid VTile) (hg : g.Wf) : (diffuseRound g).Wf := by
  constructor
  · rw [diffuseRound, foldl_markSupported_length, foldl_markSupported_dims]
    exact hg.1
  · rw [diffuseRound, foldl_markSupported_dims]
    exact hg.2

theorem diffuseRound_ts_true (g : Grid VTile) (hg : g.Wf) (q : Point) :
    tsAt (diffuseRound g) q = some true ↔
      tsAt g q = some true ∨
        ((tsAt g q).isSome = true ∧
          ∃ s ∈ q.neighbors, tsAt g s = some true) := by
  rw [diffuseRound, foldl_markSupported_ts]
  by_cases hcond : q ∈ (supportedPoints g).flatMap Point.neighbors ∧
      (tsAt g q).isSome = true
  · rw [if_pos hcond]
    obtain ⟨s, hsmem, hqn⟩ := List.mem_flatMap.1 hcond.1
    have hs := (mem_supportedPoints g hg s).1 hsmem
    simp only [true_iff]
    exact Or.inr ⟨hcond.2, s, Point.neighbors_symm q s hqn, hs⟩
  · rw [if_neg hcond]
    constructor
    · exact Or.inl
    · intro h
      cases h with
      | inl h => exact h
      | inr h =>
        obtain ⟨hsome, s, hsn, hs⟩ := h
        exact absurd ⟨List.mem_flatMap.2
          ⟨s, (mem_supportedPoints g hg s).2 hs, Point.neighbors_symm s q hsn⟩,
          hsome⟩ hcond

theorem iterate_diffuse_char (layout : List (Point × Platform))
    (world : Grid Bool) (g : Grid VTile) (hg : g.Wf)
    (hsome : ∀ q, (tsAt g q).isSome = isTerrainB world q)
    (hbase : ∀ q, tsAt g q = some true ↔
      withinHopsB layout world 0 q = true) :
    ∀ (n : Nat) (q : Point),
      tsAt (diffuseRound^[n] g) q = some true ↔
        withinHopsB layout world n q = true := by
  intro n
  induction n with
  | zero => exact hbase
  | succ n ih =>
    have hwfn : (diffuseRound^[n] g).Wf := by
      clear ih
      induction n with
      | zero => exact hg
      | succ n ih2 =>
        rw [Function.iterate_succ_apply']
        exact diffuseRound_wf _ ih2
    have hsomen : ∀ q, (tsAt (diffuseRound^[n] g) q).isSome =
        isTerrainB world q := by
      clear ih hwfn
      induction n with
      | zero => exact hsome
      | succ n ih2 =>
        intro q
        rw [Function.iterate_succ_apply', diffuseRound_ts_isSome]
        exact ih2 q
    intro q
    rw [Function.iterate_succ_apply',
      diffuseRound_ts_true _ hwfn q, withinHopsB]
    rw [Bool.or_eq_true, Bool.and_eq_true, List.any_eq_true]
    constructor
    · intro h
      cases h with
      | inl h => exact Or.inl ((ih q).1 h)
      | inr h =>
        obtain ⟨hs, s, hsn, hst⟩ := h
        exact Or.inr ⟨(hsomen q) ▸ hs, s, hsn, (ih s).1 hst⟩
    · intro h
      cases h with
      | inl h => exact Or.inl ((ih q).2 h)
      | inr h =>
        obtain ⟨ht, s, hsn, hst⟩ := h
        exact Or.inr ⟨(hsomen q).trans ht, s, hsn, (ih s).2 hst⟩

theorem iterate_diffuse_wf (g : Grid VTile) (hg : g.Wf) :
    ∀ n, (diffuseRound^[n] g).Wf
  | 0 => hg
  | n + 1 => by
    rw [Function.iterate_succ_apply']
    exact diffuseRound_wf _ (iterate_diffuse_wf g hg n)

theorem iterate_diffuse_ts_isSome (g : Grid VTile) :
    ∀ (n : Nat) (q : Point),
      (tsAt (diffuseRound^[n] g) q).isSome = (tsAt g q).isSome
  | 0, _ => rfl
  | n + 1, q => by
    rw [Function.iterate_succ_apply', diffuseRound_ts_isSome]
    exact iterate_diffuse_ts_isSome g n q

theorem isTerrainB_isSome (world : Grid Bool) (q : Point)
    (h : isTerrainB world q = true) : (world.get q).isSome = true := by
  rw [isTerrainB] at h
  cases hq : world.get q with
  | none => rw [hq] at h; simp at h
  | some b => rfl

theorem tsAt_trackInit_ne_true (world : Grid Bool) (q : Point) :
    tsAt (trackInit world) q ≠ some true := by
  rw [tsAt_trackInit]
  cases world.get q with
  | none => simp
  | some b => cases b <;> simp

theorem paintAll_wf (layout : List (Point × Platform)) (world : Grid Bool)
    (hwf : world.Wf) : (paintAll layout (trackInit world)).1.Wf := by
  constructor
  · rw [paintAll, foldl_paintPlat_length, foldl_paintPlat_dims]
    exact (trackInit_wf world hwf).1
  · rw [paintAll, foldl_paintPlat_dims]
    exact (trackInit_wf world hwf).2

theorem paint_ts_isSome (layout : List (Point × Platform)) (world : Grid Bool)
    (q : Point) :
    (tsAt (paintAll layout (trackInit world)).1 q).isSome =
      isTerrainB world q := by
  rw [paintAll, foldl_paintPlat_ts]
  by_cases h : coveredB layout q = true ∧
      ((trackInit world).get q).isSome = true
  · rw [if_pos h, ← tsAt_trackInit_isSome]
    cases tsAt (trackInit world) q <;> rfl
  · rw [if_neg h]
    exact tsAt_trackInit_isSome world q

theorem paint_ts_true (layout : List (Point × Platform)) (world : Grid Bool)
    (q : Point) :
    tsAt (paintAll layout (trackInit world)).1 q = some true ↔
      withinHopsB layout world 0 q = true := by
  rw [paintAll, foldl_paintPlat_ts]
  simp only [withinHopsB, Bool.and_eq_true]
  cases hterb : isTerrainB world q with
  | false =>
    have htt : tsAt (trackInit world) q = none := by
      have h2 := tsAt_trackInit_isSome world q
      rw [hterb] at h2
      cases htt0 : tsAt (trackInit world) q with
      | none => rfl
      | some b => rw [htt0] at h2; simp at h2
    by_cases hc : coveredB layout q = true ∧
        ((trackInit world).get q).isSome = true
    · rw [if_pos hc, htt]
      simp
    · rw [if_neg hc, htt]
      simp
  | true =>
    have hgs : ((trackInit world).get q).isSome = true := by
      rw [trackInit_get_isSome]
      exact isTerrainB_isSome world q hterb
    have hiso := tsAt_trackInit_isSome world q
    rw [hterb] at hiso
    obtain ⟨b, htt⟩ := Option.isSome_iff_exists.1 hiso
    have hbf : b = false := by
      have hne := tsAt_trackInit_ne_true world q
      rw [htt] at hne
      cases b with
      | false => rfl
      | true => exact absurd rfl hne
    subst hbf
    by_cases hcov : coveredB layout q = true
    · rw [if_pos ⟨hcov, hgs⟩, htt]
      simp [hcov]
    · rw [if_neg (fun h => hcov h.1), htt]
      simp [hcov]

theorem validate_overlapping (layout : List (Point × Platform))
    (world : Grid Bool) :
    (validate layout world).overlappingPlatforms =
      (paintAll layout (trackInit world)).2.1 := rfl

theorem validate_oob (layout : List (Point × Platform)) (world : Grid Bool) :
    (validate layout world).outOfBoundsPlatforms =
      (paintAll layout (trackInit world)).2.2 := rfl

theorem validate_unsupported (layout : List (Point × Platform))
    (world : Grid Bool) :
    (validate layout world).unsupportedTerrain =
      (diffuseRound^[TERRAIN_SUPPORT_DISTANCE - 1]
          (paintAll layout (trackInit world)).1).enumerate.filterMap
        (fun pt => if pt.2.terrainSupported = some false
          then some pt.1 else none) := by
  simp only [validate]

theorem validate_unsupported_empty (layout : List (Point × Platform))
    (world : Grid Bool) (hwf : world.Wf)
    (hterr : ∀ q, isTerrainB world q = true →
      withinHopsB layout world (TERRAIN_SUPPORT_DISTANCE - 1) q = true) :
    (validate layout world).unsupportedTerrain = [] := by
  rw [validate_unsupported]
  apply List.filterMap_eq_nil.2
  rintro ⟨p, t⟩ hmem
  have hg1wf : (paintAll layout (trackInit world)).1.Wf :=
    paintAll_wf layout world hwf
  have hG2wf := iterate_diffuse_wf _ hg1wf (TERRAIN_SUPPORT_DISTANCE - 1)
  have hget := get_of_enumerate_mem _ hG2wf p t hmem
  have hts : tsAt (diffuseRound^[TERRAIN_SUPPORT_DISTANCE - 1]
      (paintAll layout (trackInit world)).1) p = t.terrainSupported := by
    rw [tsAt, hget]
    rfl
  simp only
  by_cases hterq : isTerrainB world p = true
  · have hchar := (iterate_diffuse_char layout world _ hg1wf
      (paint_ts_isSome layout world) (paint_ts_true layout world)
      (TERRAIN_SUPPORT_DISTANCE - 1) p).2 (hterr p hterq)
    rw [hts] at hchar
    rw [hchar]
    simp
  · have hfalse : isTerrainB world p = false := by
      cases h : isTerrainB world p with
      | false => rfl
      | true => exact absurd h hterq
    have hsome2 := iterate_diffuse_ts_isSome
      (paintAll layout (trackInit world)).1 (TERRAIN_SUPPORT_DISTANCE - 1) p
    rw [paint_ts_isSome, hts, hfalse] at hsome2
    have htn : t.terrainSupported = none := by
      cases h : t.terrainSupported with
      | none => rfl
      | some b => rw [h] at hsome2; simp at hsome2
    rw [htn]
    simp

theorem isValid_iff (r : ValidationResult) :
    r.isValid = true ↔
      r.unsupportedTerrain = [] ∧ r.overlappingPlatforms = [] ∧
        r.outOfBoundsPlatforms = [] := by
  rw [ValidationResult.isValid]
  simp [List.isEmpty_iff, and_assoc]

/-- On the 1-by-1 all-terrain world the only terrain cell is the
origin. -/
theorem isTerrainB_unit_world (q : Point)
    (h : isTerrainB (⟨[true], ⟨1, 1⟩⟩ : Grid Bool) q = true) : q = ⟨0, 0⟩ := by
  have hc : (⟨[true], ⟨1, 1⟩⟩ : Grid Bool).dims.contains q = true := by
    cases hcc : (⟨[true], ⟨1, 1⟩⟩ : Grid Bool).dims.contains q with
    | false =>
      rw [isTerrainB, Grid.get_eq_none_of_not_contains _ _ hcc] at h
      simp at h
    | true => rfl
  simp only [Dimensions.contains, Bool.and_eq_true, decide_eq_true_eq] at hc
  obtain ⟨px, py⟩ := q
  simp only [Point.mk.injEq]
  simp only at hc
  omega

/-- **C8** (validator correctness).  (1) If two distinct platforms of
the layout cover a common in-bounds cell, both end up in
`overlapping_platforms`; (2) a layout that honors the rules — pairwise
cell-disjoint footprints, all platform cells in bounds, and every
terrain cell within `K-1` terrain-adjacent hops of a platform-covered
terrain cell — validates with `is_valid() = true`; (3) `is_valid()`
holds iff all three reported sets are empty. -/
theorem c8_validator (layout : List (Point × Platform)) (world : Grid Bool) :
    (∀ (A B : Platform) (c : Point),
        A ∈ layout.map Prod.snd → B ∈ layout.map Prod.snd → A ≠ B →
        c ∈ platCells A → c ∈ platCells B → (world.get c).isSome = true →
        A ∈ (validate layout world).overlappingPlatforms ∧
          B ∈ (validate layout world).overlappingPlatforms) ∧
    (world.Wf →
      layout.Pairwise (fun a b => ∀ q ∈ platCells a.2, q ∉ platCells b.2) →
      (∀ kv ∈ layout, ∀ q ∈ platCells kv.2, (world.get q).isSome = true) →
      (∀ q, isTerrainB world q = true →
        withinHopsB layout world (TERRAIN_SUPPORT_DISTANCE - 1) q = true) →
      (validate layout world).isValid = true) ∧
    ((validate layout world).isValid = true ↔
      (validate layout world).unsupportedTerrain = [] ∧
        (validate layout world).overlappingPlatforms = [] ∧
        (validate layout world).outOfBoundsPlatforms = []) := by
  refine ⟨?_, ?_, isValid_iff _⟩
  · intro A B c hA hB hAB hcA hcB hin
    rw [validate_overlapping, paintAll]
    refine foldl_paintPlat_overlap A B c layout _ hA hB hAB hcA hcB ?_ ?_
    · exact occAt_trackInit world c
    · rw [trackInit_get_isSome]
      exact hin
  · intro hwf hpw hin hterr
    rw [isValid_iff]
    refine ⟨validate_unsupported_empty layout world hwf hterr, ?_, ?_⟩
    · rw [validate_overlapping, paintAll]
      exact foldl_paintPlat_no_overlap layout _ hpw
        (fun kv hkv q hq => by
          rw [trackInit_get_isSome]
          exact hin kv hkv q hq)
        (fun q P hocc kv hkv => by
          rw [occAt_trackInit] at hocc
          exact absurd hocc (by simp))
    · rw [validate_oob, paintAll]
      exact foldl_paintPlat_oob_eq layout _
        (fun kv hkv q hq => by
          rw [trackInit_get_isSome]
          exact hin kv hkv q hq)

/-- Witness for C8 on the 1-by-1 terrain world: two distinct
rotations of the 1-by-1 platform at the origin overlap and are both
reported; the singleton layout passes validation; and the
`is_valid`-iff-empty reading holds on it. -/
theorem c8_validator_witness :
    ((⟨⟨0, 0⟩, ⟨⟨1, 1⟩⟩, false⟩ : Platform) ∈
        (validate [(⟨0, 0⟩, ⟨⟨0, 0⟩, ⟨⟨1, 1⟩⟩, false⟩),
            (⟨0, 1⟩, ⟨⟨0, 0⟩, ⟨⟨1, 1⟩⟩, true⟩)]
          (⟨[true], ⟨1, 1⟩⟩ : Grid Bool)).overlappingPlatforms ∧
      (⟨⟨0, 0⟩, ⟨⟨1, 1⟩⟩, true⟩ : Platform) ∈
        (validate [(⟨0, 0⟩, ⟨⟨0, 0⟩, ⟨⟨1, 1⟩⟩, false⟩),
            (⟨0, 1⟩, ⟨⟨0, 0⟩, ⟨⟨1, 1⟩⟩, true⟩)]
          (⟨[true], ⟨1, 1⟩⟩ : Grid Bool)).overlappingPlatforms) ∧
    (validate [(⟨0, 0⟩, ⟨⟨0, 0⟩, ⟨⟨1, 1⟩⟩, false⟩)]
        (⟨[true], ⟨1, 1⟩⟩ : Grid Bool)).isValid = true ∧
    ((validate [(⟨0, 0⟩, ⟨⟨0, 0⟩, ⟨⟨1, 1⟩⟩, false⟩)]
        (⟨[true], ⟨1, 1⟩⟩ : Grid Bool)).isValid = true ↔
      (validate [(⟨0, 0⟩, ⟨⟨0, 0⟩, ⟨⟨1, 1⟩⟩, false⟩)]
          (⟨[true], ⟨1, 1⟩⟩ : Grid Bool)).unsupportedTerrain = [] ∧
        (validate [(⟨0, 0⟩, ⟨⟨0, 0⟩, ⟨⟨1, 1⟩⟩, false⟩)]
            (⟨[true], ⟨1, 1⟩⟩ : Grid Bool)).overlappingPlatforms = [] ∧
        (validate [(⟨0, 0⟩, ⟨⟨0, 0⟩, ⟨⟨1, 1⟩⟩, false⟩)]
            (⟨[true], ⟨1, 1⟩⟩ : Grid Bool)).outOfBoundsPlatforms = []) :=
  ⟨(c8_validator
      [(⟨0, 0⟩, ⟨⟨0, 0⟩, ⟨⟨1, 1⟩⟩, false⟩), (⟨0, 1⟩, ⟨⟨0, 0⟩, ⟨⟨1, 1⟩⟩, true⟩)]
      (⟨[true], ⟨1, 1⟩⟩ : Grid Bool)).1
      ⟨⟨0, 0⟩, ⟨⟨1, 1⟩⟩, false⟩ ⟨⟨0, 0⟩, ⟨⟨1, 1⟩⟩, true⟩ ⟨0, 0⟩
      (by decide) (by decide) (by decide) (by decide) (by decide) (by decide),
    (c8_validator [(⟨0, 0⟩, ⟨⟨0, 0⟩, ⟨⟨1, 1⟩⟩, false⟩)]
      (⟨[true], ⟨1, 1⟩⟩ : Grid Bool)).2.1
      (by constructor <;> simp [Grid.Wf])
      (by simp)
      (by decide)
      (fun q hq => by
        have hq0 := isTerrainB_unit_world q hq
        subst hq0
        decide),
    (c8_validator [(⟨0, 0⟩, ⟨⟨0, 0⟩, ⟨⟨1, 1⟩⟩, false⟩)]
      (⟨[true], ⟨1, 1⟩⟩ : Grid Bool)).2.2⟩

end TimberbornSupport
